import Mathlib

/-!
Verification of the reversible PII tokenization engine of `contract_fipo`
(`contract_fipo/pii_handler.py` and `ContractAnalyzer._detokenize_response`
in `contract_fipo/main.py`).

Texts are modelled as `List Char` (Python `str`, byte-for-byte at the level
of characters).  The span detector (Presidio's `AnalyzerEngine.analyze`) is
an external collaborator; its output is passed to the tokenizer as a list of
`RSpan` values, exactly the fields (`start`, `end`, `entity_type`) that
`_tokenize_with_presidio` reads from each analyzer result.  Everything the
repository's own code does with that output — sorting by start descending,
slice replacement, counter-based token generation, dictionary bookkeeping,
sequential `str.replace` detokenization — is embedded below.
-/

/-- Texts are lists of characters. -/
abbrev Str := List Char

/-- One analyzer result, as consumed by `_tokenize_with_presidio`:
`result.start`, `result.end` (called `stop` here since `end` is a keyword)
and `result.entity_type`. -/
structure RSpan where
  start : Nat
  stop : Nat
  entity_type : Str
deriving DecidableEq, Repr

/-- Python slice `s[a:b]` for `0 ≤ a ≤ b` (indices clamp to the length,
exactly as `List.take`/`List.drop` do). -/
def pySlice (s : Str) (a b : Nat) : Str :=
  (s.take b).drop a

/-- Decimal digits of a natural number, least-significant last, with fuel
(structural recursion so that the kernel can evaluate it).  This models
Python's decimal rendering of the counter in the f-string
`f"[PII_{entity_type}_{counter}]"`. -/
def natDigitsF : Nat → Nat → Str
  | 0, _ => []
  | f + 1, n =>
    if n < 10 then [Nat.digitChar n]
    else natDigitsF f (n / 10) ++ [Nat.digitChar (n % 10)]

/-- Decimal digits of a natural number (Python `str(n)` for `n ≥ 0`). -/
def natDigits (n : Nat) : Str := natDigitsF (n + 1) n

/-- Lookup in an association list modelling a Python dict (first match;
keys are unique under `aset`, so this is dict lookup). -/
def alookup {β : Type} : List (Str × β) → Str → Option β
  | [], _ => none
  | (k, v) :: rest, key => if k = key then some v else alookup rest key

/-- Python dict assignment `d[key] = val`: updates in place if the key is
present (keeping its position in insertion order), else appends. -/
def aset {β : Type} : List (Str × β) → Str → β → List (Str × β)
  | [], key, val => [(key, val)]
  | (k, v) :: rest, key, val =>
    if k = key then (k, val) :: rest else (k, v) :: aset rest key val

/-- The mutable per-call state of `PIIHandler`: `self.token_mapping`
(token → original value, insertion-ordered) and `self.token_counters`
(entity type → counter). -/
structure PState where
  token_mapping : List (Str × Str)
  token_counters : List (Str × Nat)
deriving DecidableEq, Repr

/-- The state right after `tokenize_text` clears both dicts. -/
def pstate0 : PState := ⟨[], []⟩

/-- The five leading characters of every token. -/
def tokHead : Str := ['[', 'P', 'I', 'I', '_']

/-- The token string `f"[PII_{entity_type}_{counter}]"`. -/
def encodeToken (entity_type : Str) (counter : Nat) : Str :=
  tokHead ++ entity_type ++ '_' :: natDigits counter ++ [']']

/-- `PIIHandler._generate_token`: initialize the counter for the entity
type to 0 if absent, pre-increment it, build the token, and store
`token_mapping[token] = original_value`.  Returns the token and the
updated state. -/
def generate_token (st : PState) (entity_type original_value : Str) : Str × PState :=
  let cnt0 := (alookup st.token_counters entity_type).getD 0
  let counter := cnt0 + 1
  let token := encodeToken entity_type counter
  (token,
    { token_mapping := aset st.token_mapping token original_value,
      token_counters := aset st.token_counters entity_type counter })

/-- The `for result in results` loop of `_tokenize_with_presidio`:
`original_value = text[result.start:result.end]` is sliced from the
original `text`, a token is generated, and the current `tokenized_text`
is rewritten as `tokenized_text[:result.start] + token +
tokenized_text[result.end:]`. -/
def presidioLoop (text : Str) : List RSpan → Str → PState → Str × PState
  | [], tok, st => (tok, st)
  | r :: rs, tok, st =>
    let ov := pySlice text r.start r.stop
    let (t, st') := generate_token st r.entity_type ov
    presidioLoop text rs (tok.take r.start ++ t ++ tok.drop r.stop) st'

/-- Insert a span into a list already sorted by `start` descending,
before the first element whose `start` is not greater — so that an
element inserted later never jumps ahead of an equal-keyed element
inserted earlier (stability). -/
def insertDesc (r : RSpan) : List RSpan → List RSpan
  | [] => [r]
  | x :: xs => if r.start < x.start then x :: insertDesc r xs else r :: x :: xs

/-- Stable sort by `start` descending — the observable behavior of
`results.sort(key=lambda x: x.start, reverse=True)` (Python's sort is
stable; any stable sort by the same key produces the same list). -/
def sortByStartDesc : List RSpan → List RSpan
  | [] => []
  | r :: rs => insertDesc r (sortByStartDesc rs)

/-- `PIIHandler._tokenize_with_presidio`, with the analyzer output
`results` as a parameter: `results.sort(key=lambda x: x.start,
reverse=True)` followed by the replacement loop starting from
`tokenized_text = text`. -/
def tokenize_with_presidio (text : Str) (results : List RSpan) (st : PState) :
    Str × PState :=
  let sorted := sortByStartDesc results
  presidioLoop text sorted text st

/-- `PIIHandler.tokenize_text` (primary-detector path), with the detector
output as a parameter: clear both dicts, run the presidio tokenizer, and
return the tokenized text together with `self.token_mapping.copy()`. -/
def tokenize_text (text : Str) (results : List RSpan) : Str × List (Str × Str) :=
  let (tok, st) := tokenize_with_presidio text results pstate0
  (tok, st.token_mapping)

/-- Python `s.replace(p, r)` with fuel (structural recursion on the fuel):
scan left to right; at each position, if the pattern matches, emit the
replacement and continue after the match; otherwise emit one character.
The empty pattern inserts the replacement before every character and at
the end, exactly as in Python. -/
def replaceAllF (p r : Str) : Nat → Str → Str
  | 0, s => s
  | _ + 1, [] => if p = [] then r else []
  | fuel + 1, c :: s =>
    if p = [] then r ++ c :: replaceAllF p r fuel s
    else if p.isPrefixOf (c :: s) then r ++ replaceAllF p r fuel ((c :: s).drop p.length)
    else c :: replaceAllF p r fuel s

/-- Python `s.replace(p, r)`. -/
def replaceAll (p r s : Str) : Str := replaceAllF p r (s.length + 1) s

/-- `PIIHandler.detokenize_text`: `for token, original_value in
token_mapping.items(): detokenized_text =
detokenized_text.replace(token, original_value)`. -/
def detokenize_text (tokenized_text : Str) (token_mapping : List (Str × Str)) : Str :=
  token_mapping.foldl (fun acc kv => replaceAll kv.1 kv.2 acc) tokenized_text

/-- `ContractAnalyzer._detokenize_response` in `main.py`, with the JSON
serializer and parser (Python `json.dumps` / `json.loads`, external
collaborators per the spec) abstracted: serialize the response, run token
substitution over the serialized text, and re-parse; if parsing fails
(`loads` returns `none`, the `json.JSONDecodeError` case), return the
original still-tokenized response. -/
def detokenize_response {J : Type} (dumps : J → Str) (loads : Str → Option J)
    (response : J) (token_mapping : List (Str × Str)) : J :=
  match loads (detokenize_text (dumps response) token_mapping) with
  | some parsed => parsed
  | none => response

/-- The pattern occurs in `s` at position `i`. -/
def occursAt (p s : Str) (i : Nat) : Prop := p <+: s.drop i

instance (p s : Str) (i : Nat) : Decidable (occursAt p s i) := by
  unfold occursAt; infer_instance

/-- Computable substring test: does `p` occur (as a contiguous substring)
somewhere in `s`? -/
def containsSub (p : Str) : Str → Bool
  | [] => p.isPrefixOf []
  | c :: s => p.isPrefixOf (c :: s) || containsSub p s

/-- A string of the shape `'[' … ']'` whose interior contains neither
bracket — the shape of every generated token with a bracket-free
entity-type label. -/
def wellBracketed (t : Str) : Prop :=
  ∃ b : Str, t = '[' :: b ++ [']'] ∧ '[' ∉ b ∧ ']' ∉ b

/-- A character is neither `'['` nor `']'`. -/
def bracketFree (s : Str) : Prop := '[' ∉ s ∧ ']' ∉ s

instance (s : Str) : Decidable (bracketFree s) := by
  unfold bracketFree; infer_instance

/-- Spans listed in ascending order, pairwise separated, all starting at
or after `pos`, each nonempty. -/
def SepFrom : Nat → List RSpan → Prop
  | _, [] => True
  | pos, r :: rest => pos ≤ r.start ∧ r.start < r.stop ∧ SepFrom r.stop rest

instance sepFromDec : (pos : Nat) → (l : List RSpan) → Decidable (SepFrom pos l)
  | _, [] => isTrue trivial
  | pos, r :: rest =>
    have : Decidable (SepFrom r.stop rest) := sepFromDec r.stop rest
    inferInstanceAs (Decidable (_ ∧ _ ∧ _))

/-- All spans end within the text. -/
def InBounds (n : Nat) (l : List RSpan) : Prop := ∀ r ∈ l, r.stop ≤ n

instance (n : Nat) (l : List RSpan) : Decidable (InBounds n l) := by
  unfold InBounds; infer_instance

/-- Modelled from the spec (§4.2 step 2): the simultaneous replacement of
each span's `[start,end)` slice of the original text by its token — the
text the spec says the descending-order sequential rewrite must produce.
`pos` is the absolute offset already emitted; pairs are in ascending span
order. -/
def simReplace (text : Str) : Nat → List (RSpan × Str) → Str
  | pos, [] => text.drop pos
  | pos, (r, t) :: rest => ((text.take r.start).drop pos) ++ t ++ simReplace text r.stop rest

/-- Allocation run over analyzer results in processing (descending) order:
returns each span paired with the token it is assigned, plus the final
state.  This is the bookkeeping content of the presidio loop, separated
from the text rewriting. -/
def runSpans (text : Str) (st : PState) : List RSpan → List (RSpan × Str) × PState
  | [] => ([], st)
  | r :: rs =>
    let ov := pySlice text r.start r.stop
    let (t, st') := generate_token st r.entity_type ov
    let (ps, st'') := runSpans text st' rs
    ((r, t) :: ps, st'')

/-- The spans of a span/token pair list. -/
def pspans (l : List (RSpan × Str)) : List RSpan := l.map Prod.fst

/-- The tokens of a span/token pair list. -/
def ptoks (l : List (RSpan × Str)) : List Str := l.map Prod.snd

/-- The `token_mapping` entry a processed pair contributes: the token,
mapped to the slice of the original text it replaced. -/
def entryOf (text : Str) (pr : RSpan × Str) : Str × Str :=
  (pr.2, pySlice text pr.1.start pr.1.stop)

/-- Two spans do not overlap. -/
def SpanDisj (a b : RSpan) : Prop := a.stop ≤ b.start ∨ b.stop ≤ a.start

instance (a b : RSpan) : Decidable (SpanDisj a b) := by
  unfold SpanDisj; infer_instance

/-- The current counter of a category (0 when the category has not been
seen, as in `_generate_token`). -/
def counterOf (st : PState) (c : Str) : Nat :=
  (alookup st.token_counters c).getD 0

/-- State invariant maintained across `_generate_token` calls: mapping
keys are distinct, and every key encodes some category at a counter value
the category's counter has already reached. -/
def StInv (st : PState) : Prop :=
  (st.token_mapping.map Prod.fst).Nodup ∧
    ∀ kv ∈ st.token_mapping, ∃ c n, kv.1 = encodeToken c n ∧ 1 ≤ n ∧ n ≤ counterOf st c

/-- Numeric value of a digit string (inverse of `natDigits`). -/
def digitsVal (s : Str) : Nat :=
  s.foldl (fun a c => 10 * a + (c.toNat - 48)) 0

/-- A character allowed in the `CATEGORY` component of the spec's token
grammar `[PII_<CATEGORY>_<N>]`: `[A-Z0-9_]`. -/
def safeChar (c : Char) : Prop :=
  ('A' ≤ c ∧ c ≤ 'Z') ∨ ('0' ≤ c ∧ c ≤ '9') ∨ c = '_'

instance (c : Char) : Decidable (safeChar c) := by
  unfold safeChar; infer_instance

/-- Every entity-type label the repository actually passes to
`_generate_token`: the entity list handed to Presidio in
`_tokenize_with_presidio` plus the fixed labels of
`_tokenize_with_regex`. -/
def codeLabels : List Str :=
  [("PERSON").toList, ("EMAIL_ADDRESS").toList, ("PHONE_NUMBER").toList,
   ("CREDIT_CARD").toList, ("US_SSN").toList, ("US_DRIVER_LICENSE").toList,
   ("DATE_TIME").toList, ("LOCATION").toList, ("IP_ADDRESS").toList,
   ("URL").toList, ("US_BANK_NUMBER").toList, ("IBAN_CODE").toList,
   ("EMAIL").toList, ("PHONE").toList, ("SSN").toList]

/-- A heap of Python dict objects (id → contents), used to model the
aliasing behavior of `self.token_mapping` versus the
`self.token_mapping.copy()` that `tokenize_text` returns.  `next` is the
next fresh object id. -/
structure Heap where
  next : Nat
  store : List (Nat × List (Str × Str))

/-- Find a dict object in the heap store. -/
def hfind : List (Nat × List (Str × Str)) → Nat → Option (List (Str × Str))
  | [], _ => none
  | (k, v) :: rest, i => if k = i then some v else hfind rest i

/-- Read a dict object from the heap. -/
def hget (h : Heap) (i : Nat) : List (Str × Str) :=
  (hfind h.store i).getD []

/-- Overwrite a dict object in place. -/
def hset (h : Heap) (i : Nat) (v : List (Str × Str)) : Heap :=
  ⟨h.next, (i, v) :: h.store⟩

/-- Allocate a fresh dict object (Python `dict.copy()` allocates a new
object). -/
def halloc (h : Heap) (v : List (Str × Str)) : Heap × Nat :=
  (⟨h.next + 1, (h.next, v) :: h.store⟩, h.next)

/-- A `PIIHandler` instance: it holds a reference to its mutable
`token_mapping` dict (the counters dict is per-call state cleared at
entry, modelled directly by the pure run from `pstate0`). -/
structure Handler where
  mapRef : Nat

/-- `tokenize_text` at the heap level: clear `self.token_mapping`, run
the tokenizer (which rebuilds the dict in place — the net effect on the
handler's dict object is its final contents), and return the tokenized
text together with a reference to `self.token_mapping.copy()`, a freshly
allocated object. -/
def tokenize_text_heap (h : Heap) (hd : Handler) (text : Str) (results : List RSpan) :
    Heap × Str × Nat :=
  let (tok, st) := tokenize_with_presidio text results pstate0
  let h1 := hset h hd.mapRef st.token_mapping
  let (h2, copyRef) := halloc h1 st.token_mapping
  (h2, (tok, copyRef))

/-! ### Slice and occurrence basics -/

theorem take_isPre (n : Nat) (l : Str) : l.take n <+: l := List.take_prefix n l

theorem pre_append (l₁ l₂ : Str) : l₁ <+: l₁ ++ l₂ := List.prefix_append l₁ l₂

theorem pre_nil {l : Str} (h : l <+: ([] : Str)) : l = [] := List.prefix_nil.mp h

theorem nil_pre (l : Str) : [] <+: l := List.nil_prefix

theorem drop_split (l : Str) (pos s : Nat) (h : pos ≤ s) :
    l.drop pos = (l.take s).drop pos ++ l.drop s := by
  by_cases hs : s ≤ l.length
  · conv_lhs => rw [← List.take_append_drop s l]
    rw [List.drop_append_of_le_length]
    rw [List.length_take]
    omega
  · have h1 : l.take s = l := List.take_of_length_le (by omega)
    have h2 : l.drop s = [] := List.drop_eq_nil_of_le (by omega)
    rw [h1, h2, List.append_nil]

theorem glue_take (T : Str) {pos s e : Nat} (h1 : pos ≤ s) (h2 : s ≤ e) :
    (T.take s).drop pos ++ (T.take e).drop s = (T.take e).drop pos := by
  have h3 := drop_split (T.take e) pos s h1
  rw [List.take_take, min_eq_left h2] at h3
  exact h3.symm

theorem glue_drop (T : Str) {pos e : Nat} (h : pos ≤ e) :
    (T.take e).drop pos ++ T.drop e = T.drop pos :=
  (drop_split T pos e h).symm

theorem occursAt_zero {p s : Str} : occursAt p s 0 ↔ p <+: s := by
  simp [occursAt]

theorem occursAt_cons_succ {p s : Str} {c : Char} {i : Nat} :
    occursAt p (c :: s) (i + 1) ↔ occursAt p s i := Iff.rfl

theorem occursAt_drop {p s : Str} {n i : Nat} :
    occursAt p (s.drop n) i ↔ occursAt p s (n + i) := by
  unfold occursAt
  rw [List.drop_drop]

theorem occursAt_toInf {p s : Str} {i : Nat} (h : occursAt p s i) : p <:+: s :=
  h.isInfix.trans (List.drop_suffix i s).isInfix

theorem infix_occursAt {p s : Str} (h : p <:+: s) : ∃ i, occursAt p s i := by
  obtain ⟨a, b, rfl⟩ := h
  refine ⟨a.length, ?_⟩
  unfold occursAt
  rw [List.append_assoc, List.drop_left]
  exact pre_append p b

theorem occursAt_length_le {p s : Str} {i : Nat} (hp : p ≠ []) (h : occursAt p s i) :
    i + p.length ≤ s.length := by
  unfold occursAt at h
  have h1 : p.length ≤ (s.drop i).length := h.length_le
  rw [List.length_drop] at h1
  have h2 : i ≤ s.length := by
    by_contra hlt
    have hnil : s.drop i = [] := List.drop_eq_nil_of_le (by omega)
    rw [hnil] at h
    exact hp (pre_nil h)
  omega

theorem occursAt_getElem {p s : Str} {i : Nat} (h : occursAt p s i) {j : Nat}
    (hj : j < p.length) : s[i + j]? = p[j]? := by
  obtain ⟨u, hu⟩ := h
  rw [← List.getElem?_drop, ← hu, List.getElem?_append, if_pos hj]

theorem occursAt_append_left {p a b : Str} {i : Nat} (h : occursAt p (a ++ b) i)
    (hle : i + p.length ≤ a.length) : p <:+: a := by
  obtain ⟨u, hu⟩ := h
  have h1 : ((a ++ b).drop i).take p.length = p := by
    rw [← hu, List.take_left]
  rw [List.take_drop, List.take_append_of_le_length hle] at h1
  rw [← h1]
  exact (List.drop_suffix i (a.take (i + p.length))).isInfix.trans
    (take_isPre (i + p.length) a).isInfix

theorem occursAt_append_right {p a b : Str} {i : Nat} (h : occursAt p (a ++ b) i)
    (hge : a.length ≤ i) : occursAt p b (i - a.length) := by
  unfold occursAt at h ⊢
  have heq : (a ++ b).drop i = b.drop (i - a.length) := by
    conv_lhs => rw [show i = a.length + (i - a.length) by omega]
    rw [← List.drop_drop, List.drop_left]
  rwa [heq] at h

theorem occursAt_append_shift {p a b : Str} {i : Nat} (h : occursAt p b i) :
    occursAt p (a ++ b) (a.length + i) := by
  unfold occursAt at h ⊢
  rwa [← List.drop_drop, List.drop_left]

/-! ### Properties of `replaceAll` -/

theorem replaceAllF_irrel (p r : Str) :
    ∀ (f g : Nat) (s : Str), s.length + 1 ≤ f → s.length + 1 ≤ g →
      replaceAllF p r f s = replaceAllF p r g s := by
  intro f
  induction f with
  | zero => intro g s h _; omega
  | succ f ih =>
    intro g s hf hg
    obtain ⟨g, rfl⟩ : ∃ g2, g = g2 + 1 := ⟨g - 1, by omega⟩
    match s with
    | [] => rfl
    | c :: s =>
      simp only [List.length_cons] at hf hg
      simp only [replaceAllF]
      by_cases hp : p = []
      · rw [if_pos hp, if_pos hp, ih g s (by omega) (by omega)]
      · rw [if_neg hp, if_neg hp]
        by_cases hm : p.isPrefixOf (c :: s)
        · rw [if_pos hm, if_pos hm]
          have hp1 : 1 ≤ p.length := by
            cases p
            · exact absurd rfl hp
            · simp
          have hlen : ((c :: s).drop p.length).length = s.length + 1 - p.length := by
            rw [List.length_drop, List.length_cons]
          rw [ih g ((c :: s).drop p.length) (by omega) (by omega)]
        · rw [if_neg hm, if_neg hm, ih g s (by omega) (by omega)]

theorem replaceAll_nil (p r : Str) : replaceAll p r [] = if p = [] then r else [] := rfl

theorem replaceAll_cons_match {p : Str} (r : Str) {s : Str} (hp : p ≠ []) (hm : p <+: s) :
    replaceAll p r s = r ++ replaceAll p r (s.drop p.length) := by
  match s with
  | [] => exact absurd (pre_nil hm) hp
  | c :: s =>
    have hb : p.isPrefixOf (c :: s) := List.isPrefixOf_iff_prefix.mpr hm
    show replaceAllF p r ((c :: s).length + 1) (c :: s) = _
    simp only [List.length_cons, replaceAllF, if_neg hp, if_pos hb]
    congr 1
    have hp1 : 1 ≤ p.length := by
      cases p
      · exact absurd rfl hp
      · simp
    apply replaceAllF_irrel
    · rw [List.length_drop, List.length_cons]
      omega
    · exact le_refl _

theorem replaceAll_cons_nomatch {p : Str} (r : Str) {c : Char} {s : Str}
    (hm : ¬ p <+: (c :: s)) : replaceAll p r (c :: s) = c :: replaceAll p r s := by
  have hp : p ≠ [] := by
    rintro rfl
    exact hm (nil_pre _)
  have hb : ¬ p.isPrefixOf (c :: s) := fun h => hm (List.isPrefixOf_iff_prefix.mp h)
  show replaceAllF p r ((c :: s).length + 1) (c :: s) = _
  simp only [List.length_cons, replaceAllF, if_neg hp, if_neg hb]
  congr 1

theorem replaceAll_not_occurs {p r s : Str} (h : ∀ i, ¬ occursAt p s i) :
    replaceAll p r s = s := by
  induction s with
  | nil =>
    rw [replaceAll_nil, if_neg]
    rintro rfl
    exact h 0 (occursAt_zero.mpr (nil_pre []))
  | cons c s ih =>
    rw [replaceAll_cons_nomatch r (fun hm => h 0 (occursAt_zero.mpr hm)),
      ih (fun i hi => h (i + 1) (occursAt_cons_succ.mpr hi))]

theorem replaceAll_skip {p r : Str} : ∀ {a b : Str},
    (∀ i < a.length, ¬ occursAt p (a ++ b) i) →
    replaceAll p r (a ++ b) = a ++ replaceAll p r b := by
  intro a
  induction a with
  | nil => intro b _; simp
  | cons c a ih =>
    intro b h
    rw [List.cons_append, replaceAll_cons_nomatch r
        (fun hm => h 0 (by simp) (occursAt_zero.mpr (by rwa [List.cons_append]))),
      ih (fun i hi hocc => h (i + 1) (by simp; omega)
        (by rw [List.cons_append]; exact occursAt_cons_succ.mpr hocc)),
      List.cons_append]

theorem replaceAll_append_nocross_fuel {p : Str} (r : Str) (hp : p ≠ []) :
    ∀ (f : Nat) (x y : Str), (x ++ y).length + 1 ≤ f →
      (∀ i, occursAt p (x ++ y) i → i + p.length ≤ x.length ∨ x.length ≤ i) →
      replaceAllF p r f (x ++ y) = replaceAll p r x ++ replaceAll p r y := by
  have hp1 : 1 ≤ p.length := by
    cases p
    · exact absurd rfl hp
    · simp
  intro f
  induction f with
  | zero => intro x y h _; omega
  | succ f ih =>
    intro x y hf hcross
    match x with
    | [] =>
      rw [List.nil_append] at hf ⊢
      rw [replaceAll_nil, if_neg hp, List.nil_append]
      exact replaceAllF_irrel p r (f + 1) (y.length + 1) y hf (le_refl _)
    | c :: x =>
      rw [List.cons_append] at hf ⊢
      simp only [List.length_cons] at hf
      by_cases hm : p <+: c :: (x ++ y)
      · have hxlen : p.length ≤ (c :: x).length := by
          rcases hcross 0 (occursAt_zero.mpr (by rwa [List.cons_append])) with h1 | h1
          · simpa using h1
          · simp at h1
        have hpx : p <+: (c :: x) := by
          have hmt := List.prefix_iff_eq_take.mp hm
          rw [show (c :: (x ++ y) : Str) = (c :: x) ++ y from rfl,
            List.take_append_of_le_length hxlen] at hmt
          exact List.prefix_iff_eq_take.mpr hmt
        have hb : p.isPrefixOf (c :: (x ++ y)) := List.isPrefixOf_iff_prefix.mpr hm
        show replaceAllF p r (f + 1) (c :: (x ++ y)) = _
        simp only [replaceAllF, if_neg hp, if_pos hb]
        have hdrop : (c :: (x ++ y)).drop p.length = (c :: x).drop p.length ++ y := by
          rw [← List.cons_append, List.drop_append_of_le_length hxlen]
        rw [hdrop, ih ((c :: x).drop p.length) y
            (by rw [List.length_append, List.length_drop, List.length_cons]
                rw [List.length_append] at hf
                omega)
            (by intro i hocc
                have h2 : occursAt p ((c :: (x ++ y)).drop p.length) i := by
                  rwa [hdrop]
                rw [occursAt_drop] at h2
                rcases hcross (p.length + i) h2 with h3 | h3
                · left
                  rw [List.length_drop]
                  simp only [List.length_cons] at h3 ⊢
                  omega
                · right
                  rw [List.length_drop]
                  simp only [List.length_cons] at h3 ⊢
                  omega),
          replaceAll_cons_match r hp hpx, List.append_assoc]
      · have hb : ¬ p.isPrefixOf (c :: (x ++ y)) :=
          fun h => hm (List.isPrefixOf_iff_prefix.mp h)
        show replaceAllF p r (f + 1) (c :: (x ++ y)) = _
        simp only [replaceAllF, if_neg hp, if_neg hb]
        have hnx : ¬ p <+: (c :: x) := by
          intro h
          exact hm (by rw [← List.cons_append]; exact h.trans (pre_append (c :: x) y))
        rw [ih x y (by omega)
            (by intro i hocc
                rcases hcross (i + 1) (by rw [List.cons_append]
                                          exact occursAt_cons_succ.mpr hocc) with h3 | h3
                · left; simp only [List.length_cons] at h3; omega
                · right; simp only [List.length_cons] at h3; omega),
          replaceAll_cons_nomatch r hnx, List.cons_append]

theorem replaceAll_split_nocross {p r x y : Str} (hp : p ≠ [])
    (hcross : ∀ i, occursAt p (x ++ y) i → i + p.length ≤ x.length ∨ x.length ≤ i) :
    replaceAll p r (x ++ y) = replaceAll p r x ++ replaceAll p r y :=
  replaceAll_append_nocross_fuel r hp ((x ++ y).length + 1) x y (le_refl _) hcross

/-! ### Well-bracketed strings -/

theorem wb_ne_nil {t : Str} (h : wellBracketed t) : t ≠ [] := by
  obtain ⟨b, rfl, -, -⟩ := h
  simp

theorem wb_length {t : Str} (h : wellBracketed t) : 2 ≤ t.length := by
  obtain ⟨b, rfl, -, -⟩ := h
  simp

theorem wb_head {t : Str} (h : wellBracketed t) : t[0]? = some '[' := by
  obtain ⟨b, rfl, -, -⟩ := h
  simp

theorem wb_mid {b : Str} {i : Nat} (hi : i < b.length) :
    ('[' :: b ++ [']'] : Str)[i + 1]? = b[i]? := by
  rw [List.cons_append, List.getElem?_cons_succ, List.getElem?_append, if_pos hi]

theorem wb_rbrack {b : Str} :
    ('[' :: b ++ [']'] : Str)[b.length + 1]? = some ']' := by
  rw [List.cons_append, List.getElem?_cons_succ]
  exact List.getElem?_concat_length b ']'

theorem wb_lbrack_pos {t : Str} (h : wellBracketed t) {j : Nat}
    (hj : t[j]? = some '[') : j = 0 := by
  obtain ⟨b, rfl, hb1, hb2⟩ := h
  match j with
  | 0 => rfl
  | j + 1 =>
    by_cases hlt : j < b.length
    · rw [wb_mid hlt] at hj
      obtain ⟨hj2, hj3⟩ := List.getElem?_eq_some.mp hj
      exact absurd (hj3 ▸ List.getElem_mem hj2) hb1
    · by_cases heq : j = b.length
      · subst heq
        rw [wb_rbrack] at hj
        simp at hj
      · have : ('[' :: b ++ [']'] : Str)[j + 1]? = none := by
          apply List.getElem?_eq_none
          simp
          omega
        rw [this] at hj
        exact absurd hj (by simp)

theorem wb_last {t : Str} (h : wellBracketed t) : t[t.length - 1]? = some ']' := by
  obtain ⟨b, rfl, -, -⟩ := h
  have hl : ('[' :: b ++ [']'] : Str).length - 1 = b.length + 1 := by
    simp
  rw [hl]
  exact wb_rbrack

theorem wb_align {p t : Str} (hp : wellBracketed p) (ht : wellBracketed t)
    {x : Str} (h : occursAt p (t ++ x) 0) : p = t := by
  obtain ⟨bp, hpe, hbp1, hbp2⟩ := hp
  obtain ⟨bt, hte, hbt1, hbt2⟩ := ht
  rcases Nat.lt_trichotomy bp.length bt.length with hlt | heq | hgt
  · exfalso
    have hj : bp.length + 1 < p.length := by rw [hpe]; simp
    have h1 := occursAt_getElem h hj
    rw [Nat.zero_add] at h1
    rw [hpe] at h1
    rw [wb_rbrack] at h1
    have h2 : (t ++ x)[bp.length + 1]? = t[bp.length + 1]? := by
      rw [List.getElem?_append, if_pos]
      rw [hte]
      simp
      omega
    rw [h2, hte, wb_mid hlt] at h1
    obtain ⟨hj2, hj3⟩ := List.getElem?_eq_some.mp h1
    exact absurd (hj3 ▸ List.getElem_mem hj2) hbt2
  · have hlen : p.length = t.length := by rw [hpe, hte]; simp [heq]
    have h1 : p = (t ++ x).take p.length := by
      rw [occursAt_zero] at h
      exact List.prefix_iff_eq_take.mp h
    rw [hlen, List.take_left] at h1
    exact h1
  · exfalso
    have hj : bt.length + 1 < p.length := by rw [hpe]; simp; omega
    have h1 := occursAt_getElem h hj
    rw [Nat.zero_add] at h1
    rw [hpe, wb_mid hgt] at h1
    have h2 : (t ++ x)[bt.length + 1]? = t[bt.length + 1]? := by
      rw [List.getElem?_append, if_pos]
      rw [hte]
      simp
    rw [h2, hte, wb_rbrack] at h1
    obtain ⟨hj2, hj3⟩ := List.getElem?_eq_some.mp h1.symm
    exact absurd (hj3 ▸ List.getElem_mem hj2) hbp2

/-! ### Separation of spans -/

theorem pspans_nil : pspans [] = [] := rfl

theorem pspans_cons (pr : RSpan × Str) (l : List (RSpan × Str)) :
    pspans (pr :: l) = pr.1 :: pspans l := rfl

theorem pspans_append (a b : List (RSpan × Str)) :
    pspans (a ++ b) = pspans a ++ pspans b := List.map_append _ a b

theorem sepFrom_weaken {l : List RSpan} {e d : Nat} (h : SepFrom e l) (hde : d ≤ e) :
    SepFrom d l := by
  cases l with
  | nil => trivial
  | cons r rest => exact ⟨le_trans hde h.1, h.2.1, h.2.2⟩

theorem sepFrom_cons {r : RSpan} {l : List RSpan} {pos : Nat}
    (h : SepFrom pos (r :: l)) : SepFrom r.stop l := h.2.2

theorem sepFrom_middle {pos : Nat} :
    ∀ {A : List RSpan} {r : RSpan} {B : List RSpan},
      SepFrom pos (A ++ r :: B) → SepFrom pos (A ++ B) := by
  intro A
  induction A generalizing pos with
  | nil =>
    intro r B h
    exact sepFrom_weaken h.2.2 (le_trans h.1 (le_of_lt h.2.1))
  | cons a A ih =>
    intro r B h
    exact ⟨h.1, h.2.1, ih h.2.2⟩

/-! ### Occurrence-freedom in partially replaced texts -/

theorem scanfree_gap {p G rest : Str} (hp : wellBracketed p) (hG : ¬ p <:+: G)
    (hhead : rest[0]? = some '[') :
    ∀ i < G.length, ¬ occursAt p (G ++ rest) i := by
  intro i hi hocc
  by_cases hle : i + p.length ≤ G.length
  · exact hG (occursAt_append_left hocc hle)
  · have hj : G.length - i < p.length := by omega
    have h1 := occursAt_getElem hocc hj
    have h2 : (G ++ rest)[i + (G.length - i)]? = some '[' := by
      rw [show i + (G.length - i) = G.length by omega,
        List.getElem?_append_right (le_refl _), Nat.sub_self]
      exact hhead
    rw [h2] at h1
    have h3 := wb_lbrack_pos hp h1.symm
    omega

theorem scanfree_tok {p t G : Str} (hp : wellBracketed p) (ht : wellBracketed t)
    (hne : p ≠ t) (hG : ¬ p <:+: G) (b : Str) :
    ∀ i < G.length + t.length, ¬ occursAt p (G ++ (t ++ b)) i := by
  intro i hi hocc
  by_cases hiG : i < G.length
  · have hhead : (t ++ b)[0]? = some '[' := by
      rw [List.getElem?_append, if_pos (by have := wb_length ht; omega)]
      exact wb_head ht
    exact scanfree_gap hp hG hhead i hiG hocc
  · have hk := occursAt_append_right hocc (by omega)
    have hkt : i - G.length < t.length := by omega
    by_cases hk0 : i - G.length = 0
    · rw [hk0] at hk
      exact hne (wb_align hp ht hk)
    · have h1 := occursAt_getElem hk (show 0 < p.length by have := wb_length hp; omega)
      rw [Nat.add_zero] at h1
      have h2 : (t ++ b)[i - G.length]? = t[i - G.length]? := by
        rw [List.getElem?_append, if_pos hkt]
      rw [h2, wb_head hp] at h1
      exact hk0 (wb_lbrack_pos ht h1)

theorem not_occursAt_simReplace {T p : Str} (hp : wellBracketed p) (hpT : ¬ p <:+: T) :
    ∀ (pairs : List (RSpan × Str)) (pos : Nat),
      (∀ pr ∈ pairs, wellBracketed pr.2 ∧ pr.2 ≠ p) →
      ∀ i, ¬ occursAt p (simReplace T pos pairs) i := by
  intro pairs
  induction pairs with
  | nil =>
    intro pos _ i hocc
    exact hpT (occursAt_toInf (occursAt_drop.mp hocc))
  | cons pr rest ih =>
    intro pos hw i hocc
    obtain ⟨r, t⟩ := pr
    simp only [simReplace] at hocc
    rw [List.append_assoc] at hocc
    set G := (T.take r.start).drop pos with hGdef
    have hGinf : ¬ p <:+: G := fun h =>
      hpT (h.trans ((List.drop_suffix pos (T.take r.start)).isInfix.trans
        (take_isPre r.start T).isInfix))
    have hwt := hw (r, t) (by simp)
    by_cases hlt : i < G.length + t.length
    · exact scanfree_tok hp hwt.1 (Ne.symm hwt.2) hGinf (simReplace T r.stop rest) i hlt hocc
    · rw [← List.append_assoc] at hocc
      have hk := occursAt_append_right hocc (by rw [List.length_append]; omega)
      exact ih r.stop (fun q hq => hw q (by simp [hq])) _ hk

/-! ### Gluing partially replaced texts -/

theorem simReplace_glue {T : Str} {pos e : Nat} (hpe : pos ≤ e) :
    ∀ {post : List (RSpan × Str)}, SepFrom e (pspans post) →
      (T.take e).drop pos ++ simReplace T e post = simReplace T pos post := by
  intro post hsep
  cases post with
  | nil =>
    simp only [simReplace]
    exact glue_drop T hpe
  | cons pr rest =>
    obtain ⟨r, t⟩ := pr
    rw [pspans_cons] at hsep
    simp only [simReplace]
    rw [← List.append_assoc, ← List.append_assoc, glue_take T hpe hsep.1]

/-! ### Restoring one token -/

theorem replaceAll_simReplace_middle {T : Str} :
    ∀ (pre : List (RSpan × Str)) {r : RSpan} {p : Str} (post : List (RSpan × Str)) (pos : Nat),
      wellBracketed p → ¬ p <:+: T →
      SepFrom pos (pspans (pre ++ (r, p) :: post)) →
      (∀ pr ∈ pre ++ (r, p) :: post, wellBracketed pr.2) →
      (∀ pr ∈ pre ++ post, pr.2 ≠ p) →
      replaceAll p (pySlice T r.start r.stop) (simReplace T pos (pre ++ (r, p) :: post)) =
        simReplace T pos (pre ++ post) := by
  intro pre
  induction pre with
  | nil =>
    intro r p post pos hp hpT hsep hw hfresh
    rw [List.nil_append] at hsep hw ⊢
    rw [List.nil_append] at hfresh
    rw [pspans_cons] at hsep
    simp only [simReplace]
    set G := (T.take r.start).drop pos with hGdef
    set S := simReplace T r.stop post with hSdef
    have hGinf : ¬ p <:+: G := fun h =>
      hpT (h.trans ((List.drop_suffix pos (T.take r.start)).isInfix.trans
        (take_isPre r.start T).isInfix))
    have hphead : (p ++ S)[0]? = some '[' := by
      rw [List.getElem?_append, if_pos (by have := wb_length hp; omega)]
      exact wb_head hp
    rw [List.append_assoc,
      replaceAll_skip (fun i hi hocc => scanfree_gap hp hGinf hphead i hi hocc),
      replaceAll_cons_match (pySlice T r.start r.stop) (wb_ne_nil hp) (pre_append p S),
      List.drop_left,
      replaceAll_not_occurs (not_occursAt_simReplace hp hpT post r.stop
        (fun pr hpr => ⟨hw pr (by simp [hpr]), hfresh pr hpr⟩) )]
    rw [← List.append_assoc]
    have hGv : G ++ pySlice T r.start r.stop = (T.take r.stop).drop pos := by
      rw [hGdef]
      unfold pySlice
      exact glue_take T hsep.1 (le_of_lt hsep.2.1)
    rw [hGv, List.nil_append]
    exact simReplace_glue (le_trans hsep.1 (le_of_lt hsep.2.1)) hsep.2.2
  | cons pr1 pre ih =>
    intro r p post pos hp hpT hsep hw hfresh
    obtain ⟨r1, t1⟩ := pr1
    rw [List.cons_append] at hsep hw ⊢
    rw [List.cons_append] at hfresh
    rw [pspans_cons] at hsep
    simp only [simReplace]
    set G := (T.take r1.start).drop pos with hGdef
    set X := simReplace T r1.stop (pre ++ (r, p) :: post) with hXdef
    have hGinf : ¬ p <:+: G := fun h =>
      hpT (h.trans ((List.drop_suffix pos (T.take r1.start)).isInfix.trans
        (take_isPre r1.start T).isInfix))
    have ht1 : wellBracketed t1 := hw (r1, t1) (by simp)
    have hne : p ≠ t1 := Ne.symm (hfresh (r1, t1) (by simp))
    have hskip : ∀ i < (G ++ t1).length, ¬ occursAt p ((G ++ t1) ++ X) i := by
      intro i hi hocc
      rw [List.length_append] at hi
      rw [List.append_assoc] at hocc
      exact scanfree_tok hp ht1 hne hGinf X i hi hocc
    rw [replaceAll_skip hskip,
      ih post r1.stop hp hpT hsep.2.2 (fun q hq => hw q (by simp [hq]))
        (fun q hq => hfresh q (by simp at hq ⊢; tauto))]
    rfl

/-! ### Unfolding equations for the loop and the allocation run -/

theorem presidioLoop_cons (T : Str) (r : RSpan) (rs : List RSpan) (tok : Str) (st : PState) :
    presidioLoop T (r :: rs) tok st =
      presidioLoop T rs
        (tok.take r.start ++ (generate_token st r.entity_type (pySlice T r.start r.stop)).1 ++
          tok.drop r.stop)
        (generate_token st r.entity_type (pySlice T r.start r.stop)).2 := rfl

theorem runSpans_cons (T : Str) (st : PState) (r : RSpan) (rs : List RSpan) :
    runSpans T st (r :: rs) =
      ((r, (generate_token st r.entity_type (pySlice T r.start r.stop)).1) ::
          (runSpans T (generate_token st r.entity_type (pySlice T r.start r.stop)).2 rs).1,
        (runSpans T (generate_token st r.entity_type (pySlice T r.start r.stop)).2 rs).2) := rfl

theorem sepFrom_extract {pos : Nat} :
    ∀ {A : List RSpan} {r : RSpan} {B : List RSpan}, SepFrom pos (A ++ r :: B) →
      r.start < r.stop ∧ SepFrom r.stop B := by
  intro A
  induction A generalizing pos with
  | nil => intro r B h; exact ⟨h.2.1, h.2.2⟩
  | cons a A ih => intro r B h; exact ih h.2.2

/-! ### The descending sequential rewrite equals the simultaneous replacement -/

theorem simReplace_step {T : Str} {P : List (RSpan × Str)} {r : RSpan}
    (hse : r.start ≤ r.stop) (hsep : SepFrom r.stop (pspans P))
    (hb : InBounds T.length (pspans P)) (t : Str) :
    (simReplace T 0 P).take r.start ++ t ++ (simReplace T 0 P).drop r.stop =
      simReplace T 0 ((r, t) :: P) := by
  cases P with
  | nil => simp only [simReplace, List.drop_zero]
  | cons pr rest =>
    obtain ⟨r1, t1⟩ := pr
    rw [pspans_cons] at hsep hb
    simp only [simReplace, List.drop_zero]
    have hs1T : r1.start ≤ T.length :=
      le_trans (le_of_lt hsep.2.1) (hb r1 (by simp))
    have hlen : (T.take r1.start).length = r1.start := by
      rw [List.length_take]
      omega
    have htake : (T.take r1.start ++ t1 ++ simReplace T r1.stop rest).take r.start =
        T.take r.start := by
      rw [List.append_assoc,
        List.take_append_of_le_length (by rw [hlen]; exact le_trans hse hsep.1),
        List.take_take, min_eq_left (le_trans hse hsep.1)]
    have hdrop : (T.take r1.start ++ t1 ++ simReplace T r1.stop rest).drop r.stop =
        (T.take r1.start).drop r.stop ++ (t1 ++ simReplace T r1.stop rest) := by
      rw [List.append_assoc, List.drop_append_of_le_length (by rw [hlen]; exact hsep.1)]
    rw [htake, hdrop]
    simp [List.append_assoc]

theorem presidioLoop_simReplace {T : Str} :
    ∀ (D : List RSpan) (P : List (RSpan × Str)) (st : PState),
      SepFrom 0 (D.reverse ++ pspans P) → InBounds T.length (D.reverse ++ pspans P) →
      presidioLoop T D (simReplace T 0 P) st =
        (simReplace T 0 ((runSpans T st D).1.reverse ++ P), (runSpans T st D).2) := by
  intro D
  induction D with
  | nil =>
    intro P st _ _
    simp [presidioLoop, runSpans]
  | cons r rs ih =>
    intro P st hsep hb
    rw [List.reverse_cons, List.append_assoc] at hsep hb
    have hext := sepFrom_extract (A := rs.reverse) (r := r) (B := pspans P)
      (by simpa using hsep)
    have hbP : InBounds T.length (pspans P) := fun q hq => hb q (by simp [hq])
    rw [presidioLoop_cons, runSpans_cons]
    rw [simReplace_step (le_of_lt hext.1) hext.2 hbP
      (generate_token st r.entity_type (pySlice T r.start r.stop)).1]
    rw [ih ((r, (generate_token st r.entity_type (pySlice T r.start r.stop)).1) :: P)
      (generate_token st r.entity_type (pySlice T r.start r.stop)).2
      (by rw [pspans_cons]; simpa using hsep)
      (by rw [pspans_cons]; intro q hq; exact hb q (by simpa using hq))]
    rw [List.reverse_cons, List.append_assoc]
    rfl

theorem simReplace_nil_eq (T : Str) : simReplace T 0 [] = T := by
  simp [simReplace]

theorem tokenize_with_presidio_eq {T : Str} {results : List RSpan} (st : PState)
    (hsep : SepFrom 0 (sortByStartDesc results).reverse)
    (hb : InBounds T.length (sortByStartDesc results).reverse) :
    tokenize_with_presidio T results st =
      (simReplace T 0 (runSpans T st (sortByStartDesc results)).1.reverse,
        (runSpans T st (sortByStartDesc results)).2) := by
  have h := presidioLoop_simReplace (sortByStartDesc results) [] st
    (by rw [pspans_nil, List.append_nil]; exact hsep)
    (by rw [pspans_nil, List.append_nil]; exact hb)
  rw [simReplace_nil_eq, List.append_nil] at h
  exact h

/-! ### The sort: permutation and order -/

theorem insertDesc_perm (r : RSpan) (l : List RSpan) :
    (insertDesc r l).Perm (r :: l) := by
  induction l with
  | nil => exact List.Perm.refl _
  | cons x xs ih =>
    unfold insertDesc
    by_cases h : r.start < x.start
    · rw [if_pos h]
      exact (List.Perm.cons x ih).trans (List.Perm.swap r x xs)
    · rw [if_neg h]

theorem sortByStartDesc_perm (l : List RSpan) : (sortByStartDesc l).Perm l := by
  induction l with
  | nil => exact List.Perm.refl _
  | cons r rs ih =>
    exact (insertDesc_perm r (sortByStartDesc rs)).trans (List.Perm.cons r ih)

theorem insertDesc_sorted {r : RSpan} {l : List RSpan}
    (h : l.Pairwise (fun a b => b.start ≤ a.start)) :
    (insertDesc r l).Pairwise (fun a b => b.start ≤ a.start) := by
  induction l with
  | nil => simp [insertDesc]
  | cons x xs ih =>
    unfold insertDesc
    rw [List.pairwise_cons] at h
    by_cases hc : r.start < x.start
    · rw [if_pos hc]
      refine List.Pairwise.cons ?_ (ih h.2)
      intro y hy
      rcases List.mem_cons.mp ((insertDesc_perm r xs).mem_iff.mp hy) with hy2 | hy2
      · subst hy2
        exact le_of_lt hc
      · exact h.1 y hy2
    · rw [if_neg hc]
      refine List.Pairwise.cons ?_ (List.pairwise_cons.mpr h)
      intro y hy
      rcases List.mem_cons.mp hy with hy2 | hy2
      · subst hy2
        omega
      · have := h.1 y hy2
        omega

theorem sortByStartDesc_sorted (l : List RSpan) :
    (sortByStartDesc l).Pairwise (fun a b => b.start ≤ a.start) := by
  induction l with
  | nil => simp [sortByStartDesc]
  | cons r rs ih => exact insertDesc_sorted ih

theorem sepFrom_of_asc : ∀ {l : List RSpan} (pos : Nat),
    (∀ r ∈ l, r.start < r.stop) →
    l.Pairwise (fun a b => a.start ≤ b.start) →
    l.Pairwise SpanDisj →
    (∀ r ∈ l, pos ≤ r.start) →
    SepFrom pos l := by
  intro l
  induction l with
  | nil => intro pos _ _ _ _; trivial
  | cons r rest ih =>
    intro pos hv hasc hdisj hpos
    rw [List.pairwise_cons] at hasc hdisj
    refine ⟨hpos r (by simp), hv r (by simp), ih r.stop (fun q hq => hv q (by simp [hq]))
      hasc.2 hdisj.2 (fun q hq => ?_)⟩
    rcases hdisj.1 q hq with h1 | h1
    · exact h1
    · have h2 := hasc.1 q hq
      have h3 := hv q (by simp [hq])
      omega

theorem sorted_reverse_sep {results : List RSpan}
    (hv : ∀ r ∈ results, r.start < r.stop)
    (hdisj : results.Pairwise SpanDisj) :
    SepFrom 0 (sortByStartDesc results).reverse := by
  have hmem : ∀ r ∈ (sortByStartDesc results).reverse, r ∈ results := fun r hr =>
    (sortByStartDesc_perm results).mem_iff.mp (List.mem_reverse.mp hr)
  apply sepFrom_of_asc 0 (fun r hr => hv r (hmem r hr))
  · rw [List.pairwise_reverse]
    exact sortByStartDesc_sorted results
  · rw [List.pairwise_reverse]
    have hsymm : ∀ {x y : RSpan}, SpanDisj x y → SpanDisj y x := fun h => h.symm
    have h1 : (sortByStartDesc results).Pairwise SpanDisj :=
      ((sortByStartDesc_perm results).pairwise_iff hsymm).mpr hdisj
    exact List.Pairwise.imp (fun h => hsymm h) h1
  · intro r _
    exact Nat.zero_le _

theorem inBounds_sorted {n : Nat} {results : List RSpan} (hb : InBounds n results) :
    InBounds n (sortByStartDesc results).reverse := fun r hr =>
  hb r ((sortByStartDesc_perm results).mem_iff.mp (List.mem_reverse.mp hr))

/-! ### Decimal digits of the counter -/

theorem digitChar_mem {n : Nat} (h : n < 10) :
    Nat.digitChar n ∈ (['0', '1', '2', '3', '4', '5', '6', '7', '8', '9'] : Str) := by
  interval_cases n <;> decide

theorem natDigitsF_mem : ∀ (f n : Nat), n < f →
    ∀ c ∈ natDigitsF f n, c ∈ (['0', '1', '2', '3', '4', '5', '6', '7', '8', '9'] : Str) := by
  intro f
  induction f with
  | zero => intro n h; omega
  | succ f ih =>
    intro n h c hc
    unfold natDigitsF at hc
    by_cases h10 : n < 10
    · rw [if_pos h10] at hc
      simp only [List.mem_singleton] at hc
      subst hc
      exact digitChar_mem h10
    · rw [if_neg h10] at hc
      rcases List.mem_append.mp hc with hc2 | hc2
      · have hdiv : n / 10 < f := by
          have := Nat.div_lt_self (show 0 < n by omega) (show 1 < 10 by norm_num)
          omega
        exact ih (n / 10) hdiv c hc2
      · simp only [List.mem_singleton] at hc2
        subst hc2
        exact digitChar_mem (Nat.mod_lt n (by norm_num))

theorem natDigits_mem {n : Nat} {c : Char} (hc : c ∈ natDigits n) :
    c ∈ (['0', '1', '2', '3', '4', '5', '6', '7', '8', '9'] : Str) :=
  natDigitsF_mem (n + 1) n (by omega) c hc

theorem natDigits_no_underscore {n : Nat} (h : '_' ∈ natDigits n) : False :=
  absurd (natDigits_mem h) (by decide)

theorem natDigits_no_lbrack {n : Nat} (h : '[' ∈ natDigits n) : False :=
  absurd (natDigits_mem h) (by decide)

theorem natDigits_no_rbrack {n : Nat} (h : ']' ∈ natDigits n) : False :=
  absurd (natDigits_mem h) (by decide)

theorem digitChar_toNat {n : Nat} (h : n < 10) : (Nat.digitChar n).toNat = 48 + n := by
  interval_cases n <;> decide

theorem digitsVal_natDigitsF : ∀ (f n : Nat), n < f → digitsVal (natDigitsF f n) = n := by
  intro f
  induction f with
  | zero => intro n h; omega
  | succ f ih =>
    intro n h
    unfold natDigitsF
    by_cases h10 : n < 10
    · rw [if_pos h10]
      unfold digitsVal
      simp [digitChar_toNat h10]
    · rw [if_neg h10]
      unfold digitsVal
      rw [List.foldl_append]
      have hdiv : n / 10 < f := by
        have := Nat.div_lt_self (show 0 < n by omega) (show 1 < 10 by norm_num)
        omega
      have h2 := ih (n / 10) hdiv
      unfold digitsVal at h2
      rw [h2]
      simp [digitChar_toNat (Nat.mod_lt n (by norm_num))]
      omega

theorem natDigits_inj {m n : Nat} (h : natDigits m = natDigits n) : m = n := by
  have h1 := digitsVal_natDigitsF (m + 1) m (by omega)
  have h2 := digitsVal_natDigitsF (n + 1) n (by omega)
  unfold natDigits at h
  rw [← h1, ← h2, h]

/-! ### Token encoding: shape and injectivity -/

theorem append_sep_inj {x : Char} :
    ∀ {a₁ b₁ a₂ b₂ : Str},
      a₁ ++ x :: b₁ = a₂ ++ x :: b₂ → x ∉ a₁ → x ∉ a₂ → a₁ = a₂ ∧ b₁ = b₂ := by
  intro a₁
  induction a₁ with
  | nil =>
    intro b₁ a₂ b₂ h h1 h2
    cases a₂ with
    | nil => simpa using h
    | cons y a₂ =>
      rw [List.nil_append, List.cons_append] at h
      injection h with hy hrest
      exact absurd (by rw [hy]; exact List.mem_cons_self y a₂) h2
  | cons y a₁ ih =>
    intro b₁ a₂ b₂ h h1 h2
    cases a₂ with
    | nil =>
      rw [List.nil_append, List.cons_append] at h
      injection h with hy hrest
      exact absurd (by rw [hy]; exact List.mem_cons_self x a₁) h1
    | cons z a₂ =>
      rw [List.cons_append, List.cons_append] at h
      injection h with hyz hrest
      obtain ⟨ha, hb⟩ := ih hrest (fun hm => h1 (List.mem_cons_of_mem y hm))
        (fun hm => h2 (List.mem_cons_of_mem z hm))
      exact ⟨by rw [hyz, ha], hb⟩

theorem encodeToken_shape (c : Str) (n : Nat) :
    encodeToken c n = '[' :: (['P', 'I', 'I', '_'] ++ c ++ '_' :: natDigits n) ++ [']'] := by
  unfold encodeToken tokHead
  simp [List.append_assoc]

theorem encodeToken_wb {c : Str} (hc : bracketFree c) (n : Nat) :
    wellBracketed (encodeToken c n) := by
  refine ⟨['P', 'I', 'I', '_'] ++ c ++ '_' :: natDigits n, encodeToken_shape c n, ?_, ?_⟩
  · intro h
    simp only [List.append_assoc, List.mem_append, List.mem_cons] at h
    rcases h with h | h | h | h
    · revert h; decide
    · exact hc.1 h
    · exact absurd h (by decide)
    · exact natDigits_no_lbrack h
  · intro h
    simp only [List.append_assoc, List.mem_append, List.mem_cons] at h
    rcases h with h | h | h | h
    · revert h; decide
    · exact hc.2 h
    · exact absurd h (by decide)
    · exact natDigits_no_rbrack h

theorem encodeToken_strip (c : Str) (n : Nat) :
    (encodeToken c n).drop 5 = (c ++ '_' :: natDigits n) ++ [']'] := by
  unfold encodeToken
  rw [List.append_assoc, List.append_assoc, ← List.append_assoc c]
  have h5 := List.drop_left tokHead ((c ++ '_' :: natDigits n) ++ [']'])
  simpa [tokHead] using h5

theorem encodeToken_inj {c₁ c₂ : Str} {n₁ n₂ : Nat}
    (h : encodeToken c₁ n₁ = encodeToken c₂ n₂) : c₁ = c₂ ∧ n₁ = n₂ := by
  have h6 : (c₁ ++ '_' :: natDigits n₁) ++ [']'] = (c₂ ++ '_' :: natDigits n₂) ++ [']'] := by
    rw [← encodeToken_strip, ← encodeToken_strip, h]
  have h3 := List.append_cancel_right h6
  have h4 := congrArg List.reverse h3
  rw [List.reverse_append, List.reverse_append, List.reverse_cons, List.reverse_cons,
    List.append_assoc, List.append_assoc, List.singleton_append, List.singleton_append] at h4
  obtain ⟨hd, hc⟩ := append_sep_inj h4
    (fun hm => natDigits_no_underscore (List.mem_reverse.mp hm))
    (fun hm => natDigits_no_underscore (List.mem_reverse.mp hm))
  exact ⟨List.reverse_injective hc, natDigits_inj (List.reverse_injective hd)⟩

/-! ### Dict bookkeeping -/

theorem alookup_aset_self {β : Type} (l : List (Str × β)) (k : Str) (v : β) :
    alookup (aset l k v) k = some v := by
  induction l with
  | nil => simp [aset, alookup]
  | cons kv rest ih =>
    obtain ⟨k1, v1⟩ := kv
    unfold aset
    by_cases h : k1 = k
    · rw [if_pos h]
      unfold alookup
      rw [if_pos h]
    · rw [if_neg h]
      unfold alookup
      rw [if_neg h]
      exact ih

theorem alookup_aset_other {β : Type} {k k' : Str} (hne : k ≠ k') :
    ∀ (l : List (Str × β)) (v : β), alookup (aset l k v) k' = alookup l k' := by
  intro l
  induction l with
  | nil =>
    intro v
    simp only [aset, alookup]
    rw [if_neg hne]
  | cons kv rest ih =>
    intro v
    obtain ⟨k1, v1⟩ := kv
    unfold aset
    by_cases h : k1 = k
    · subst h
      rw [if_pos rfl]
      unfold alookup
      rw [if_neg hne, if_neg hne]
    · rw [if_neg h]
      unfold alookup
      by_cases h2 : k1 = k'
      · rw [if_pos h2, if_pos h2]
      · rw [if_neg h2, if_neg h2]
        exact ih v

theorem aset_not_mem {β : Type} : ∀ {l : List (Str × β)} {k : Str},
    k ∉ l.map Prod.fst → ∀ (v : β), aset l k v = l ++ [(k, v)] := by
  intro l
  induction l with
  | nil => intro k _ v; rfl
  | cons kv rest ih =>
    intro k hk v
    obtain ⟨k1, v1⟩ := kv
    simp only [List.map_cons, List.mem_cons] at hk
    push_neg at hk
    unfold aset
    rw [if_neg (fun h => hk.1 h.symm), ih hk.2, List.cons_append]

theorem generate_token_fst (st : PState) (c v : Str) :
    (generate_token st c v).1 = encodeToken c (counterOf st c + 1) := rfl

theorem generate_token_snd_mapping (st : PState) (c v : Str) :
    (generate_token st c v).2.token_mapping =
      aset st.token_mapping (generate_token st c v).1 v := rfl

theorem generate_token_snd_counters (st : PState) (c v : Str) :
    (generate_token st c v).2.token_counters =
      aset st.token_counters c (counterOf st c + 1) := rfl

theorem counterOf_generate_self (st : PState) (c v : Str) :
    counterOf (generate_token st c v).2 c = counterOf st c + 1 := by
  unfold counterOf
  rw [generate_token_snd_counters, alookup_aset_self]
  rfl

theorem counterOf_generate_mono (st : PState) (c c' v : Str) :
    counterOf st c' ≤ counterOf (generate_token st c v).2 c' := by
  by_cases h : c = c'
  · subst h
    rw [counterOf_generate_self]
    omega
  · unfold counterOf
    rw [generate_token_snd_counters, alookup_aset_other h]

/-! ### The state invariant across a tokenization run -/

theorem stInv_pstate0 : StInv pstate0 :=
  ⟨List.nodup_nil, fun kv hkv => absurd hkv (List.not_mem_nil kv)⟩

theorem stInv_generate {st : PState} (hinv : StInv st) (c v : Str) :
    StInv (generate_token st c v).2 ∧
      (generate_token st c v).2.token_mapping =
        st.token_mapping ++ [((generate_token st c v).1, v)] := by
  have hfresh : (generate_token st c v).1 ∉ st.token_mapping.map Prod.fst := by
    intro hmem
    obtain ⟨kv, hkv, hkey⟩ := List.mem_map.mp hmem
    obtain ⟨c', n', hk, hn1, hn2⟩ := hinv.2 kv hkv
    rw [generate_token_fst] at hkey
    have hk2 : encodeToken c' n' = encodeToken c (counterOf st c + 1) := by
      rw [← hk, hkey]
    obtain ⟨hceq, hneq⟩ := encodeToken_inj hk2
    subst hceq
    omega
  have hmapeq : (generate_token st c v).2.token_mapping =
      st.token_mapping ++ [((generate_token st c v).1, v)] := by
    rw [generate_token_snd_mapping, aset_not_mem hfresh]
  refine ⟨⟨?_, ?_⟩, hmapeq⟩
  · rw [hmapeq, List.map_append]
    rw [List.nodup_append]
    refine ⟨hinv.1, by simp, ?_⟩
    intro a ha hb
    simp only [List.map_cons, List.map_nil, List.mem_singleton] at hb
    exact hfresh (hb ▸ ha)
  · intro kv hkv
    rw [hmapeq] at hkv
    rcases List.mem_append.mp hkv with hm | hm
    · obtain ⟨c', n', hk, hn1, hn2⟩ := hinv.2 kv hm
      exact ⟨c', n', hk, hn1, le_trans hn2 (counterOf_generate_mono st c c' v)⟩
    · simp only [List.mem_singleton] at hm
      subst hm
      refine ⟨c, counterOf st c + 1, generate_token_fst st c v, by omega, ?_⟩
      rw [counterOf_generate_self]

theorem counterOf_runSpans_mono : ∀ (D : List RSpan) (T : Str) (st : PState) (c : Str),
    counterOf st c ≤ counterOf (runSpans T st D).2 c := by
  intro D
  induction D with
  | nil => intro T st c; exact le_refl _
  | cons r rs ih =>
    intro T st c
    rw [runSpans_cons]
    exact le_trans (counterOf_generate_mono st r.entity_type c _) (ih T _ c)

theorem runSpans_state : ∀ (D : List RSpan) (T : Str) (st : PState), StInv st →
    StInv (runSpans T st D).2 ∧
      (runSpans T st D).2.token_mapping =
        st.token_mapping ++ (runSpans T st D).1.map (entryOf T) := by
  intro D
  induction D with
  | nil =>
    intro T st h
    exact ⟨h, by simp [runSpans]⟩
  | cons r rs ih =>
    intro T st h
    obtain ⟨h1, h2⟩ := stInv_generate h r.entity_type (pySlice T r.start r.stop)
    obtain ⟨h3, h4⟩ := ih T (generate_token st r.entity_type (pySlice T r.start r.stop)).2 h1
    rw [runSpans_cons]
    refine ⟨h3, ?_⟩
    show (runSpans T _ rs).2.token_mapping = _
    rw [h4, h2, List.map_cons, List.append_assoc, List.singleton_append]
    rfl

theorem runSpans_tokens : ∀ (D : List RSpan) (T : Str) (st : PState),
    ∀ pr ∈ (runSpans T st D).1, pr.1 ∈ D ∧
      ∃ n, 1 ≤ n ∧ pr.2 = encodeToken pr.1.entity_type n := by
  intro D
  induction D with
  | nil =>
    intro T st pr hpr
    exact absurd hpr (by simp [runSpans])
  | cons r rs ih =>
    intro T st pr hpr
    rw [runSpans_cons] at hpr
    rcases List.mem_cons.mp hpr with hm | hm
    · subst hm
      exact ⟨by simp, counterOf st r.entity_type + 1, by omega,
        generate_token_fst st r.entity_type (pySlice T r.start r.stop)⟩
    · obtain ⟨hmem, hn⟩ := ih T _ pr hm
      exact ⟨by simp [hmem], hn⟩

theorem presidioLoop_state : ∀ (D : List RSpan) (T tok : Str) (st : PState),
    (presidioLoop T D tok st).2 = (runSpans T st D).2 := by
  intro D
  induction D with
  | nil => intro T tok st; rfl
  | cons r rs ih =>
    intro T tok st
    rw [presidioLoop_cons, runSpans_cons]
    exact ih T _ _

/-! ### Detokenization restores the original text -/

theorem detokenize_perm_restores {T : Str} :
    ∀ (entries : List (Str × Str)) (pairs : List (RSpan × Str)),
      SepFrom 0 (pspans pairs) →
      (∀ pr ∈ pairs, wellBracketed pr.2) →
      (∀ pr ∈ pairs, ¬ pr.2 <:+: T) →
      (ptoks pairs).Nodup →
      entries.Perm (pairs.map (entryOf T)) →
      detokenize_text (simReplace T 0 pairs) entries = T := by
  intro entries
  induction entries with
  | nil =>
    intro pairs hsep hw hT hnd hperm
    have hnil : pairs.map (entryOf T) = [] := List.Perm.eq_nil hperm.symm
    have hpairs : pairs = [] := List.map_eq_nil.mp hnil
    subst hpairs
    simp [detokenize_text, simReplace]
  | cons ev rest ih =>
    intro pairs hsep hw hT hnd hperm
    obtain ⟨t, v⟩ := ev
    have hmem : (t, v) ∈ pairs.map (entryOf T) := hperm.subset (by simp)
    obtain ⟨pr, hpr, hpre⟩ := List.mem_map.mp hmem
    obtain ⟨pre, post, rfl⟩ := List.append_of_mem hpr
    obtain ⟨r, t2⟩ := pr
    have ht2 : t2 = t := congrArg Prod.fst hpre
    subst ht2
    have hv : v = pySlice T r.start r.stop := (congrArg Prod.snd hpre).symm
    have hwt : wellBracketed t2 := hw (r, t2) hpr
    have hTt : ¬ t2 <:+: T := hT (r, t2) hpr
    have hndmid : t2 ∉ (pre.map Prod.snd) ++ post.map Prod.snd ∧
        ((pre.map Prod.snd) ++ post.map Prod.snd).Nodup := by
      have h1 : ptoks (pre ++ (r, t2) :: post) =
          (pre.map Prod.snd) ++ t2 :: post.map Prod.snd := by
        unfold ptoks
        rw [List.map_append, List.map_cons]
      rw [h1] at hnd
      have h2 := List.nodup_middle.mp hnd
      rw [List.nodup_cons] at h2
      exact h2
    have hfresh : ∀ q ∈ pre ++ post, q.2 ≠ t2 := by
      intro q hq hqt
      apply hndmid.1
      rw [← List.map_append]
      exact List.mem_map.mpr ⟨q, hq, hqt⟩
    show detokenize_text (simReplace T 0 (pre ++ (r, t2) :: post)) ((t2, v) :: rest) = T
    unfold detokenize_text
    rw [List.foldl_cons, hv,
      replaceAll_simReplace_middle pre post 0 hwt hTt hsep
        (fun q hq => hw q hq) hfresh]
    have hsep2 : SepFrom 0 (pspans (pre ++ post)) := by
      rw [pspans_append]
      rw [pspans_append, pspans_cons] at hsep
      exact sepFrom_middle hsep
    have hperm2 : rest.Perm ((pre ++ post).map (entryOf T)) := by
      have hmid : (pre ++ (r, t2) :: post).map (entryOf T) =
          pre.map (entryOf T) ++ entryOf T (r, t2) :: post.map (entryOf T) := by
        rw [List.map_append, List.map_cons]
      have hentry : entryOf T (r, t2) = (t2, v) := by
        rw [hpre, hv]
      have hp2 : ((t2, v) :: rest).Perm
          ((t2, v) :: (pre.map (entryOf T) ++ post.map (entryOf T))) := by
        refine hperm.trans ?_
        rw [hmid, hentry]
        exact List.perm_middle
      rw [List.map_append]
      exact hp2.cons_inv
    exact ih (pre ++ post) hsep2 (fun q hq => hw q (by simp at hq ⊢; tauto))
      (fun q hq => hT q (by simp at hq ⊢; tauto))
      (by unfold ptoks; rw [List.map_append]; exact hndmid.2) hperm2

/-! ### Structure of the `tokenize_text` result -/

theorem runSpans_spans : ∀ (D : List RSpan) (T : Str) (st : PState),
    pspans (runSpans T st D).1 = D := by
  intro D
  induction D with
  | nil => intro T st; rfl
  | cons r rs ih =>
    intro T st
    rw [runSpans_cons, pspans_cons]
    rw [ih T _]

theorem tokenize_text_snd (T : Str) (results : List RSpan) :
    (tokenize_text T results).2 =
      (runSpans T pstate0 (sortByStartDesc results)).1.map (entryOf T) := by
  show (presidioLoop T (sortByStartDesc results) T pstate0).2.token_mapping = _
  rw [presidioLoop_state]
  rw [(runSpans_state (sortByStartDesc results) T pstate0 stInv_pstate0).2]
  rfl

theorem tokenize_text_fst {T : Str} {results : List RSpan}
    (hsep : SepFrom 0 (sortByStartDesc results).reverse)
    (hb : InBounds T.length (sortByStartDesc results).reverse) :
    (tokenize_text T results).1 =
      simReplace T 0 (runSpans T pstate0 (sortByStartDesc results)).1.reverse := by
  show (tokenize_with_presidio T results pstate0).1 = _
  rw [tokenize_with_presidio_eq pstate0 hsep hb]

theorem tokenize_text_keys (T : Str) (results : List RSpan) :
    (tokenize_text T results).2.map Prod.fst =
      ptoks (runSpans T pstate0 (sortByStartDesc results)).1 := by
  rw [tokenize_text_snd]
  unfold ptoks
  rw [List.map_map]
  rfl

theorem tokenize_text_nodup_keys (T : Str) (results : List RSpan) :
    ((tokenize_text T results).2.map Prod.fst).Nodup := by
  show ((presidioLoop T (sortByStartDesc results) T pstate0).2.token_mapping.map
    Prod.fst).Nodup
  rw [presidioLoop_state]
  exact (runSpans_state _ T pstate0 stInv_pstate0).1.1

/-! ### The computable substring test agrees with the infix relation -/

theorem containsSub_iff (p : Str) : ∀ (s : Str), containsSub p s = true ↔ p <:+: s := by
  intro s
  induction s with
  | nil =>
    show p.isPrefixOf [] = true ↔ _
    rw [List.isPrefixOf_iff_prefix]
    constructor
    · intro h
      exact h.isInfix
    · intro h
      rw [List.infix_nil] at h
      rw [h]
  | cons c s ih =>
    show (p.isPrefixOf (c :: s) || containsSub p s) = true ↔ _
    rw [Bool.or_eq_true, List.isPrefixOf_iff_prefix, ih, List.infix_cons_iff]

theorem not_infix_of_containsSub_false {p s : Str} (h : containsSub p s = false) :
    ¬ p <:+: s := by
  intro hinf
  rw [← containsSub_iff] at hinf
  rw [h] at hinf
  exact absurd hinf (by decide)

/-! ### Values of replaced spans do not survive in the tokenized text -/

theorem occursAt_take {w T : Str} {s i : Nat} (h : occursAt w (T.take s) i) :
    occursAt w T i := by
  unfold occursAt at h ⊢
  rw [List.drop_take] at h
  exact h.trans (take_isPre _ _)

theorem sepFrom_le_start : ∀ {l : List RSpan} {pos : Nat}, SepFrom pos l →
    ∀ r ∈ l, pos ≤ r.start := by
  intro l
  induction l with
  | nil => intro pos _ r hr; exact absurd hr (List.not_mem_nil r)
  | cons x xs ih =>
    intro pos h r hr
    rcases List.mem_cons.mp hr with h2 | h2
    · subst h2
      exact h.1
    · exact le_trans (le_trans h.1 (le_of_lt h.2.1)) (ih h.2.2 r h2)

theorem val_not_infix_simReplace {T w : Str} (hwne : w ≠ []) (hwb : bracketFree w) :
    ∀ (pairs : List (RSpan × Str)) (pos : Nat),
      SepFrom pos (pspans pairs) →
      (∀ pr ∈ pairs, wellBracketed pr.2 ∧ ¬ w <:+: pr.2) →
      (∀ q, occursAt w T q → q + w.length ≤ pos ∨
        ∃ r ∈ pspans pairs, r.start ≤ q ∧ q + w.length ≤ r.stop) →
      ∀ i, ¬ occursAt w (simReplace T pos pairs) i := by
  have hlw : 1 ≤ w.length := by
    cases w
    · exact absurd rfl hwne
    · simp
  intro pairs
  induction pairs with
  | nil =>
    intro pos hsep hw hocc i hi
    have h1 : occursAt w T (pos + i) := occursAt_drop.mp hi
    rcases hocc (pos + i) h1 with h2 | h2
    · omega
    · obtain ⟨r, hr, -⟩ := h2
      exact absurd hr (List.not_mem_nil r)
  | cons pr rest ih =>
    intro pos hsep hw hocc i hi
    obtain ⟨r, t⟩ := pr
    rw [pspans_cons] at hsep
    simp only [simReplace] at hi
    rw [List.append_assoc] at hi
    set G := (T.take r.start).drop pos with hGdef
    set S := simReplace T r.stop rest with hSdef
    have hwtok : wellBracketed t := (hw (r, t) (by simp)).1
    have hwint : ¬ w <:+: t := (hw (r, t) (by simp)).2
    have hsep1 : pos ≤ r.start := hsep.1
    have hsep2 : r.start < r.stop := hsep.2.1
    have hsep3 : SepFrom r.stop (pspans rest) := hsep.2.2
    have hGlen : G.length ≤ r.start - pos := by
      rw [hGdef, List.length_drop, List.length_take]
      omega
    by_cases hiG : i + w.length ≤ G.length
    · obtain ⟨j, hj⟩ := infix_occursAt (occursAt_append_left hi hiG)
      have hjlen := occursAt_length_le hwne hj
      have h3 : occursAt w T (pos + j) := occursAt_take (occursAt_drop.mp hj)
      rcases hocc (pos + j) h3 with h2 | h2
      · omega
      · obtain ⟨r2, hr2, hq1, hq2⟩ := h2
        rcases List.mem_cons.mp hr2 with h4 | h4
        · rw [h4] at hq1 hq2
          have hq1b : r.start ≤ pos + j := hq1
          have hq2b : pos + j + w.length ≤ r.stop := hq2
          omega
        · have h5 : r.stop ≤ r2.start := sepFrom_le_start hsep3 r2 h4
          omega
    · by_cases hstr : i < G.length
      · have hj : G.length - i < w.length := by omega
        have h1 := occursAt_getElem hi hj
        have h2 : (G ++ (t ++ S))[i + (G.length - i)]? = some '[' := by
          rw [show i + (G.length - i) = G.length by omega,
            List.getElem?_append_right (le_refl _), Nat.sub_self,
            List.getElem?_append, if_pos (by have := wb_length hwtok; omega)]
          exact wb_head hwtok
        rw [h2] at h1
        obtain ⟨hlt2, hget2⟩ := List.getElem?_eq_some.mp h1.symm
        exact hwb.1 (hget2 ▸ List.getElem_mem hlt2)
      · have hk := occursAt_append_right hi (by omega)
        by_cases hkt : (i - G.length) + w.length ≤ t.length
        · exact hwint (occursAt_append_left hk hkt)
        · by_cases hkt2 : i - G.length < t.length
          · have hj : t.length - 1 - (i - G.length) < w.length := by omega
            have h1 := occursAt_getElem hk hj
            have h2 : (t ++ S)[(i - G.length) + (t.length - 1 - (i - G.length))]? =
                some ']' := by
              rw [show (i - G.length) + (t.length - 1 - (i - G.length)) = t.length - 1
                  by omega,
                List.getElem?_append, if_pos (by have := wb_length hwtok; omega)]
              exact wb_last hwtok
            rw [h2] at h1
            obtain ⟨hlt2, hget2⟩ := List.getElem?_eq_some.mp h1.symm
            exact hwb.2 (hget2 ▸ List.getElem_mem hlt2)
          · have hk2 := occursAt_append_right hk (by omega)
            have hocc2 : ∀ q, occursAt w T q → q + w.length ≤ r.stop ∨
                ∃ r2 ∈ pspans rest, r2.start ≤ q ∧ q + w.length ≤ r2.stop := by
              intro q hq
              rcases hocc q hq with h2 | h2
              · left
                have := hsep.1
                have := hsep.2.1
                omega
              · obtain ⟨r2, hr2, hq1, hq2⟩ := h2
                rcases List.mem_cons.mp hr2 with h4 | h4
                · subst h4
                  left
                  exact hq2
                · right
                  exact ⟨r2, h4, hq1, hq2⟩
            exact ih r.stop hsep3 (fun q hq => hw q (by simp [hq])) hocc2 _ hk2

/-! ### Detokenization leaves unknown tokens untouched -/

theorem no_cross_at_lbrack {k : Str} (hk : wellBracketed k) {x y : Str}
    (hy : y[0]? = some '[') :
    ∀ i, occursAt k (x ++ y) i → i + k.length ≤ x.length ∨ x.length ≤ i := by
  intro i hocc
  by_cases h1 : i + k.length ≤ x.length
  · left
    exact h1
  · by_cases h2 : x.length ≤ i
    · right
      exact h2
    · exfalso
      have hj : x.length - i < k.length := by omega
      have hc := occursAt_getElem hocc hj
      have h3 : (x ++ y)[i + (x.length - i)]? = some '[' := by
        rw [show i + (x.length - i) = x.length by omega,
          List.getElem?_append_right (le_refl _), Nat.sub_self]
        exact hy
      rw [h3] at hc
      have := wb_lbrack_pos hk hc.symm
      omega

theorem occursAt_wb_after {k t : Str} (hk : wellBracketed k) (ht : wellBracketed t)
    (hne : k ≠ t) (b : Str) :
    ∀ i, occursAt k (t ++ b) i → t.length ≤ i := by
  intro i hocc
  by_cases h1 : t.length ≤ i
  · exact h1
  · exfalso
    by_cases h0 : i = 0
    · subst h0
      exact hne (wb_align hk ht hocc)
    · have hc := occursAt_getElem hocc (show 0 < k.length by have := wb_length hk; omega)
      rw [Nat.add_zero, List.getElem?_append, if_pos (by omega), wb_head hk] at hc
      exact h0 (wb_lbrack_pos ht hc)

theorem not_occursAt_wb_self {k t : Str} (hk : wellBracketed k) (ht : wellBracketed t)
    (hne : k ≠ t) : ∀ i, ¬ occursAt k t i := by
  intro i hocc
  have h1 : occursAt k (t ++ []) i := by rwa [List.append_nil]
  have h2 := occursAt_wb_after hk ht hne [] i h1
  have h3 := occursAt_length_le (wb_ne_nil hk) hocc
  have := wb_length hk
  omega

theorem replaceAll_around_token {k v t : Str} (hk : wellBracketed k)
    (ht : wellBracketed t) (hne : k ≠ t) (a b : Str) :
    replaceAll k v (a ++ t ++ b) = replaceAll k v a ++ t ++ replaceAll k v b := by
  have hkne : k ≠ [] := wb_ne_nil hk
  have hthead : (t ++ b)[0]? = some '[' := by
    rw [List.getElem?_append, if_pos (by have := wb_length ht; omega)]
    exact wb_head ht
  rw [List.append_assoc,
    replaceAll_split_nocross hkne (no_cross_at_lbrack hk hthead),
    replaceAll_split_nocross hkne
      (fun i hocc => Or.inr (occursAt_wb_after hk ht hne b i hocc)),
    replaceAll_not_occurs (not_occursAt_wb_self hk ht hne), List.append_assoc]

theorem detokenize_around_token {t : Str} (ht : wellBracketed t) :
    ∀ (m : List (Str × Str)) (a b : Str),
      (∀ kv ∈ m, wellBracketed kv.1) → (∀ kv ∈ m, kv.1 ≠ t) →
      detokenize_text (a ++ t ++ b) m = detokenize_text a m ++ t ++ detokenize_text b m := by
  intro m
  induction m with
  | nil => intro a b _ _; rfl
  | cons kv rest ih =>
    intro a b hw hne
    obtain ⟨k, v⟩ := kv
    show detokenize_text (a ++ t ++ b) ((k, v) :: rest) = _
    unfold detokenize_text
    simp only [List.foldl_cons]
    rw [replaceAll_around_token (hw (k, v) (by simp)) ht (hne (k, v) (by simp)) a b]
    exact ih (replaceAll k v a) (replaceAll k v b) (fun q hq => hw q (by simp [hq]))
      (fun q hq => hne q (by simp [hq]))

/-! ### Round-trip core -/

theorem detokenize_tokenize_core {T : Str} {results : List RSpan}
    {entries : List (Str × Str)}
    (hv : ∀ r ∈ results, r.start < r.stop)
    (hdisj : results.Pairwise SpanDisj)
    (hb : InBounds T.length results)
    (hcat : ∀ r ∈ results, bracketFree r.entity_type)
    (hTfree : ∀ kv ∈ (tokenize_text T results).2, containsSub kv.1 T = false)
    (hperm : entries.Perm (tokenize_text T results).2) :
    detokenize_text (tokenize_text T results).1 entries = T := by
  set D := sortByStartDesc results with hDdef
  set pairs := (runSpans T pstate0 D).1.reverse with hpairsdef
  have hsepD : SepFrom 0 D.reverse := sorted_reverse_sep hv hdisj
  have hbD : InBounds T.length D.reverse := inBounds_sorted hb
  have hps : pspans pairs = D.reverse := by
    rw [hpairsdef]
    unfold pspans
    rw [List.map_reverse]
    rw [show (runSpans T pstate0 D).1.map Prod.fst =
      pspans (runSpans T pstate0 D).1 from rfl, runSpans_spans]
  have hfst := tokenize_text_fst hsepD hbD
  have hsnd := tokenize_text_snd T results
  have htok : ∀ pr ∈ pairs, wellBracketed pr.2 ∧ ¬ pr.2 <:+: T := by
    intro pr hpr
    have hpr2 : pr ∈ (runSpans T pstate0 D).1 := List.mem_reverse.mp hpr
    obtain ⟨hmemD, n, hn1, henc⟩ := runSpans_tokens D T pstate0 pr hpr2
    have hmemres : pr.1 ∈ results := (sortByStartDesc_perm results).mem_iff.mp hmemD
    constructor
    · rw [henc]
      exact encodeToken_wb (hcat pr.1 hmemres) n
    · have hkey : pr.2 ∈ (tokenize_text T results).2.map Prod.fst := by
        rw [tokenize_text_keys]
        exact List.mem_map.mpr ⟨pr, hpr2, rfl⟩
      obtain ⟨kv, hkv, hkveq⟩ := List.mem_map.mp hkey
      have hfalse := hTfree kv hkv
      rw [hkveq] at hfalse
      exact not_infix_of_containsSub_false hfalse
  have hndk := tokenize_text_nodup_keys T results
  rw [tokenize_text_keys] at hndk
  have hnd : (ptoks pairs).Nodup := by
    rw [hpairsdef]
    unfold ptoks
    rw [List.map_reverse, List.nodup_reverse]
    exact hndk
  have hperm2 : entries.Perm (pairs.map (entryOf T)) := by
    rw [hpairsdef, List.map_reverse]
    rw [hsnd] at hperm
    exact hperm.trans (List.reverse_perm _).symm
  rw [hfst]
  exact detokenize_perm_restores entries pairs (hps ▸ hsepD)
    (fun pr hpr => (htok pr hpr).1) (fun pr hpr => (htok pr hpr).2) hnd hperm2

/-! ### Remaining small helpers for the claims -/

theorem natDigits_ne_nil (n : Nat) : natDigits n ≠ [] := by
  unfold natDigits natDigitsF
  by_cases h : n < 10
  · rw [if_pos h]
    simp
  · rw [if_neg h]
    simp

theorem natDigits_digit_range {n : Nat} : ∀ c ∈ natDigits n, '0' ≤ c ∧ c ≤ '9' := by
  intro c hc
  have h := natDigits_mem hc
  fin_cases h <;> decide

theorem tokenize_text_heap_eq (h : Heap) (hd : Handler) (text : Str)
    (results : List RSpan) :
    tokenize_text_heap h hd text results =
      (⟨h.next + 1,
        (h.next, (tokenize_with_presidio text results pstate0).2.token_mapping) ::
          (hd.mapRef, (tokenize_with_presidio text results pstate0).2.token_mapping) ::
            h.store⟩,
        ((tokenize_with_presidio text results pstate0).1, h.next)) := rfl

/-! ### Claim theorems -/

/-- C1 (corrected).  Round-trip with restoration: for spans that are valid,
pairwise non-overlapping and in bounds, whose labels are bracket-free, and
such that no allocated token already occurs as a substring of the input
text, detokenizing the tokenized text with the mapping returned by the
same `tokenize_text` call restores the input byte for byte. -/
theorem C1_round_trip_restoration (T : Str) (results : List RSpan)
    (hv : ∀ r ∈ results, r.start < r.stop)
    (hdisj : results.Pairwise SpanDisj)
    (hb : InBounds T.length results)
    (hcat : ∀ r ∈ results, bracketFree r.entity_type)
    (hTfree : ∀ kv ∈ (tokenize_text T results).2, containsSub kv.1 T = false) :
    detokenize_text (tokenize_text T results).1 (tokenize_text T results).2 = T :=
  detokenize_tokenize_core hv hdisj hb hcat hTfree (List.Perm.refl _)

/-- C1 witness: a concrete text with a person span and an email span
round-trips exactly. -/
theorem C1_round_trip_restoration_witness :
    detokenize_text
        (tokenize_text ("Ann Lee: a@b.cd").toList
          [⟨0, 7, ("PERSON").toList⟩, ⟨9, 15, ("EMAIL_ADDRESS").toList⟩]).1
        (tokenize_text ("Ann Lee: a@b.cd").toList
          [⟨0, 7, ("PERSON").toList⟩, ⟨9, 15, ("EMAIL_ADDRESS").toList⟩]).2 =
      ("Ann Lee: a@b.cd").toList :=
  C1_round_trip_restoration ("Ann Lee: a@b.cd").toList
    [⟨0, 7, ("PERSON").toList⟩, ⟨9, 15, ("EMAIL_ADDRESS").toList⟩]
    (by decide) (by decide) (by decide) (by decide) (by decide)

/-- C1 counterexample: when the input text already contains the token that
the call allocates, the round trip is not byte-for-byte.  The text
`"[PII_PERSON_1] Ann Lee"` with the single detected span `"Ann Lee"`
(offsets 15–22, category PERSON) tokenizes to
`"[PII_PERSON_1] [PII_PERSON_1]"`, and detokenizing replaces both
occurrences, yielding `"Ann Lee Ann Lee"` instead of the original. -/
theorem C1_round_trip_exact_counterexample :
    detokenize_text
        (tokenize_text ("[PII_PERSON_1] Ann Lee").toList
          [⟨15, 22, ("PERSON").toList⟩]).1
        (tokenize_text ("[PII_PERSON_1] Ann Lee").toList
          [⟨15, 22, ("PERSON").toList⟩]).2 ≠
      ("[PII_PERSON_1] Ann Lee").toList := by
  decide

/-- C2 (corrected).  No leakage: for valid, pairwise non-overlapping,
in-bounds spans with bracket-free labels, if every span value is
bracket-free, every occurrence of a span value in the input lies inside
some detected span, and no span value is a substring of an allocated
token, then no value stored in the returned mapping occurs anywhere in
the returned tokenized text. -/
theorem C2_no_leakage (T : Str) (results : List RSpan)
    (hv : ∀ r ∈ results, r.start < r.stop)
    (hdisj : results.Pairwise SpanDisj)
    (hb : InBounds T.length results)
    (hcat : ∀ r ∈ results, bracketFree r.entity_type)
    (hvals : ∀ r ∈ results, bracketFree (pySlice T r.start r.stop))
    (hcover : ∀ r ∈ results, ∀ q < T.length, occursAt (pySlice T r.start r.stop) T q →
      ∃ r2 ∈ results, r2.start ≤ q ∧ q + (pySlice T r.start r.stop).length ≤ r2.stop)
    (hvt : ∀ r ∈ results, ∀ kv ∈ (tokenize_text T results).2,
      containsSub (pySlice T r.start r.stop) kv.1 = false) :
    ∀ kv ∈ (tokenize_text T results).2, ¬ kv.2 <:+: (tokenize_text T results).1 := by
  intro kv hkv hinf
  set D := sortByStartDesc results with hDdef
  set pairs := (runSpans T pstate0 D).1.reverse with hpairsdef
  have hsepD : SepFrom 0 D.reverse := sorted_reverse_sep hv hdisj
  have hbD : InBounds T.length D.reverse := inBounds_sorted hb
  have hps : pspans pairs = D.reverse := by
    rw [hpairsdef]
    unfold pspans
    rw [List.map_reverse]
    rw [show (runSpans T pstate0 D).1.map Prod.fst =
      pspans (runSpans T pstate0 D).1 from rfl, runSpans_spans]
  have hmemiff : ∀ r2 : RSpan, r2 ∈ pspans pairs ↔ r2 ∈ results := by
    intro r2
    rw [hps, List.mem_reverse]
    exact (sortByStartDesc_perm results).mem_iff
  -- identify the value kv.2 as the slice of its span
  rw [tokenize_text_snd T results] at hkv
  obtain ⟨pr, hpr, hpreq⟩ := List.mem_map.mp hkv
  have hprres : pr.1 ∈ results := by
    have h1 : pr.1 ∈ pspans (runSpans T pstate0 D).1 := List.mem_map.mpr ⟨pr, hpr, rfl⟩
    rw [runSpans_spans] at h1
    exact (sortByStartDesc_perm results).mem_iff.mp h1
  have hval : kv.2 = pySlice T pr.1.start pr.1.stop := by
    rw [← hpreq]
    rfl
  set w := pySlice T pr.1.start pr.1.stop with hwdef
  have hwlen : w.length = pr.1.stop - pr.1.start := by
    rw [hwdef]
    unfold pySlice
    rw [List.length_drop, List.length_take]
    have h1 := hv pr.1 hprres
    have h2 := hb pr.1 hprres
    omega
  have hwne : w ≠ [] := by
    intro h
    have h1 := hv pr.1 hprres
    rw [h, List.length_nil] at hwlen
    omega
  have hwb : bracketFree w := hvals pr.1 hprres
  -- tokens of the pairs are mapping keys
  have htokkey : ∀ pr2 ∈ pairs, pr2.2 ∈ (tokenize_text T results).2.map Prod.fst := by
    intro pr2 hpr2
    rw [tokenize_text_keys]
    exact List.mem_map.mpr ⟨pr2, List.mem_reverse.mp hpr2, rfl⟩
  have hw2 : ∀ pr2 ∈ pairs, wellBracketed pr2.2 ∧ ¬ w <:+: pr2.2 := by
    intro pr2 hpr2
    have hpr22 : pr2 ∈ (runSpans T pstate0 D).1 := List.mem_reverse.mp hpr2
    obtain ⟨hmemD, n, hn1, henc⟩ := runSpans_tokens D T pstate0 pr2 hpr22
    have hmemres : pr2.1 ∈ results := (sortByStartDesc_perm results).mem_iff.mp hmemD
    constructor
    · rw [henc]
      exact encodeToken_wb (hcat pr2.1 hmemres) n
    · obtain ⟨kv2, hkv2, hkv2eq⟩ := List.mem_map.mp (htokkey pr2 hpr2)
      have hfalse := hvt pr.1 hprres kv2 hkv2
      rw [hkv2eq] at hfalse
      exact not_infix_of_containsSub_false hfalse
  have hocc : ∀ q, occursAt w T q → q + w.length ≤ 0 ∨
      ∃ r2 ∈ pspans pairs, r2.start ≤ q ∧ q + w.length ≤ r2.stop := by
    intro q hq
    right
    have hlw : 0 < w.length := List.length_pos.mpr hwne
    have hqlt : q < T.length := by
      have := occursAt_length_le hwne hq
      omega
    obtain ⟨r2, hr2, h1, h2⟩ := hcover pr.1 hprres q hqlt hq
    exact ⟨r2, (hmemiff r2).mpr hr2, h1, h2⟩
  rw [hval] at hinf
  rw [tokenize_text_fst hsepD hbD] at hinf
  obtain ⟨i, hi⟩ := infix_occursAt hinf
  exact val_not_infix_simReplace hwne hwb pairs 0 (hps ▸ hsepD) hw2 hocc i hi

/-- C2 witness: a concrete text where both detected values vanish from
the tokenized text. -/
theorem C2_no_leakage_witness :
    ¬ (("Ann Lee").toList <:+:
      (tokenize_text ("Ann Lee: a@b.cd").toList
        [⟨0, 7, ("PERSON").toList⟩, ⟨9, 15, ("EMAIL_ADDRESS").toList⟩]).1) := by
  have h := C2_no_leakage ("Ann Lee: a@b.cd").toList
    [⟨0, 7, ("PERSON").toList⟩, ⟨9, 15, ("EMAIL_ADDRESS").toList⟩]
    (by decide) (by decide) (by decide) (by decide) (by decide) (by decide) (by decide)
    ((("[PII_PERSON_1]").toList, ("Ann Lee").toList)) (by decide)
  exact h

/-- C2 counterexample: with the text `"Ann Lee and xAnn Lee"` and the
single detected span `"Ann Lee"` at offsets 0–7 (exactly what the
fallback PERSON pattern detects, since `xAnn` has no word boundary), the
span value `"Ann Lee"` still occurs in the tokenized text, inside
`"xAnn Lee"`. -/
theorem C2_no_leakage_counterexample :
    containsSub (("Ann Lee").toList)
      (tokenize_text ("Ann Lee and xAnn Lee").toList
        [⟨0, 7, ("PERSON").toList⟩]).1 = true ∧
    ((("[PII_PERSON_1]").toList, ("Ann Lee").toList) ∈
      (tokenize_text ("Ann Lee and xAnn Lee").toList [⟨0, 7, ("PERSON").toList⟩]).2) := by
  constructor <;> decide

/-- C3 (corrected).  The CATEGORY component of a generated token is the
label passed to `_generate_token` verbatim — no normalization is applied.
For every label the repository's code actually passes (the Presidio
entity list and the fixed regex labels), the label already matches
`[A-Z0-9_]+` and the counter digits match `[0-9]+`, so those tokens
satisfy the spec's token grammar. -/
theorem C3_category_passthrough (st : PState) (v cat : Str) (hcat : cat ∈ codeLabels) :
    (generate_token st cat v).1 =
      '[' :: (['P', 'I', 'I', '_'] ++ cat ++ '_' :: natDigits (counterOf st cat + 1)) ++
        [']'] ∧
    cat ≠ [] ∧ (∀ c ∈ cat, safeChar c) ∧
    natDigits (counterOf st cat + 1) ≠ [] ∧
    (∀ c ∈ natDigits (counterOf st cat + 1), '0' ≤ c ∧ c ≤ '9') := by
  have hall : ∀ c2 ∈ codeLabels, c2 ≠ [] ∧ ∀ c ∈ c2, safeChar c := by decide
  refine ⟨?_, (hall cat hcat).1, (hall cat hcat).2, natDigits_ne_nil _,
    natDigits_digit_range⟩
  rw [generate_token_fst, encodeToken_shape]

/-- C3 witness: the PERSON label. -/
theorem C3_category_passthrough_witness :
    (generate_token pstate0 ("PERSON").toList ("Ann").toList).1 =
      '[' :: (['P', 'I', 'I', '_'] ++ ("PERSON").toList ++
        '_' :: natDigits (counterOf pstate0 ("PERSON").toList + 1)) ++ [']'] :=
  (C3_category_passthrough pstate0 ("Ann").toList ("PERSON").toList (by decide)).1

/-- C3 counterexample: for the label `"email"` the generated token is
`"[PII_email_1]"` — the CATEGORY component is the label verbatim, not its
normalized form, and contains `'e'`, which does not match `[A-Z0-9_]`. -/
theorem C3_normalization_counterexample :
    (generate_token pstate0 ("email").toList ("x").toList).1 =
      ("[PII_email_1]").toList ∧
    'e' ∈ ("email").toList ∧ ¬ safeChar 'e' ∧
    ("[PII_email_1]").toList ≠ ("[PII_EMAIL_1]").toList := by
  refine ⟨?_, ?_, ?_, ?_⟩ <;> decide

/-- C4 (confirmed).  For every list of valid, pairwise non-overlapping,
in-bounds spans, the code's descending-order sequential rewrite (sort by
start descending, then replace each `[start,end)` slice from highest
offset to lowest) produces exactly the simultaneous replacement of each
span's slice of the original text by its allocated token
(`simReplace`, written from the spec's words), with no offset
corruption. -/
theorem C4_descending_rewrite_simultaneous (T : Str) (results : List RSpan)
    (hv : ∀ r ∈ results, r.start < r.stop)
    (hdisj : results.Pairwise SpanDisj)
    (hb : InBounds T.length results) :
    (tokenize_text T results).1 =
      simReplace T 0 (runSpans T pstate0 (sortByStartDesc results)).1.reverse :=
  tokenize_text_fst (sorted_reverse_sep hv hdisj) (inBounds_sorted hb)

/-- C4 witness: the concrete two-span text. -/
theorem C4_descending_rewrite_simultaneous_witness :
    (tokenize_text ("Ann Lee: a@b.cd").toList
      [⟨0, 7, ("PERSON").toList⟩, ⟨9, 15, ("EMAIL_ADDRESS").toList⟩]).1 =
      simReplace ("Ann Lee: a@b.cd").toList 0
        (runSpans ("Ann Lee: a@b.cd").toList pstate0
          (sortByStartDesc
            [⟨0, 7, ("PERSON").toList⟩, ⟨9, 15, ("EMAIL_ADDRESS").toList⟩])).1.reverse :=
  C4_descending_rewrite_simultaneous ("Ann Lee: a@b.cd").toList
    [⟨0, 7, ("PERSON").toList⟩, ⟨9, 15, ("EMAIL_ADDRESS").toList⟩]
    (by decide) (by decide) (by decide)

/-- C5 (corrected).  For the text and mapping produced by a
`tokenize_text` call on valid, pairwise non-overlapping, in-bounds spans
with bracket-free labels, where no allocated token already occurs in the
input, the result of `detokenize_text` is the same for every permutation
of the mapping's entries. -/
theorem C5_detokenize_order_independence (T : Str) (results : List RSpan)
    (entries : List (Str × Str))
    (hv : ∀ r ∈ results, r.start < r.stop)
    (hdisj : results.Pairwise SpanDisj)
    (hb : InBounds T.length results)
    (hcat : ∀ r ∈ results, bracketFree r.entity_type)
    (hTfree : ∀ kv ∈ (tokenize_text T results).2, containsSub kv.1 T = false)
    (hperm : entries.Perm (tokenize_text T results).2) :
    detokenize_text (tokenize_text T results).1 entries =
      detokenize_text (tokenize_text T results).1 (tokenize_text T results).2 := by
  rw [detokenize_tokenize_core hv hdisj hb hcat hTfree hperm,
    detokenize_tokenize_core hv hdisj hb hcat hTfree (List.Perm.refl _)]

/-- C5 witness: the two-entry mapping applied in reversed order gives the
same detokenization. -/
theorem C5_detokenize_order_independence_witness :
    detokenize_text
        (tokenize_text ("Ann Lee: a@b.cd").toList
          [⟨0, 7, ("PERSON").toList⟩, ⟨9, 15, ("EMAIL_ADDRESS").toList⟩]).1
        ((tokenize_text ("Ann Lee: a@b.cd").toList
          [⟨0, 7, ("PERSON").toList⟩, ⟨9, 15, ("EMAIL_ADDRESS").toList⟩]).2.reverse) =
      detokenize_text
        (tokenize_text ("Ann Lee: a@b.cd").toList
          [⟨0, 7, ("PERSON").toList⟩, ⟨9, 15, ("EMAIL_ADDRESS").toList⟩]).1
        (tokenize_text ("Ann Lee: a@b.cd").toList
          [⟨0, 7, ("PERSON").toList⟩, ⟨9, 15, ("EMAIL_ADDRESS").toList⟩]).2 :=
  C5_detokenize_order_independence ("Ann Lee: a@b.cd").toList
    [⟨0, 7, ("PERSON").toList⟩, ⟨9, 15, ("EMAIL_ADDRESS").toList⟩] _
    (by decide) (by decide) (by decide) (by decide) (by decide)
    (List.reverse_perm _)

/-- C5 counterexample: for an arbitrary mapping, replacement order does
matter.  With the text `"[PII_A_1]"` and a mapping whose value for
`"[PII_A_1]"` contains the other key `"[PII_B_1]"`, the two entry orders
give `"x"` and `"[PII_B_1]"` respectively. -/
theorem C5_order_dependence_counterexample :
    detokenize_text (("[PII_A_1]").toList)
        [((("[PII_A_1]").toList), ("[PII_B_1]").toList),
          ((("[PII_B_1]").toList), ("x").toList)] ≠
      detokenize_text (("[PII_A_1]").toList)
        [((("[PII_B_1]").toList), ("x").toList),
          ((("[PII_A_1]").toList), ("[PII_B_1]").toList)] := by
  decide

/-- C6 (confirmed).  Partial mapping tolerance: `detokenize_text` never
fails, and a token occurring in the text but absent from the mapping is
left untouched — detokenization distributes around its occurrence
(provided the mapping's keys are tokens, i.e. well-bracketed strings, as
the data model requires).  In particular the spec's concrete instance
holds: detokenizing `"[PII_PERSON_1] and [PII_EMAIL_1]"` with only the
person entry yields `"Ann and [PII_EMAIL_1]"`. -/
theorem C6_partial_mapping_tolerance :
    (∀ (m : List (Str × Str)) (a b t : Str),
      wellBracketed t → (∀ kv ∈ m, wellBracketed kv.1) → (∀ kv ∈ m, kv.1 ≠ t) →
      detokenize_text (a ++ t ++ b) m =
        detokenize_text a m ++ t ++ detokenize_text b m) ∧
    detokenize_text (("[PII_PERSON_1] and [PII_EMAIL_1]").toList)
      [((("[PII_PERSON_1]").toList), ("Ann").toList)] =
      ("Ann and [PII_EMAIL_1]").toList := by
  constructor
  · intro m a b t ht hw hne
    exact detokenize_around_token ht m a b hw hne
  · decide

/-- C6 witness: the unknown token `"[PII_EMAIL_1]"` survives untouched
around a mapping that only knows `"[PII_PERSON_1]"`. -/
theorem C6_partial_mapping_tolerance_witness :
    detokenize_text ((("x ").toList ++ ("[PII_EMAIL_1]").toList ++ ([] : Str)))
        [((("[PII_PERSON_1]").toList), ("Ann").toList)] =
      detokenize_text (("x ").toList)
          [((("[PII_PERSON_1]").toList), ("Ann").toList)] ++
        ("[PII_EMAIL_1]").toList ++
        detokenize_text ([] : Str) [((("[PII_PERSON_1]").toList), ("Ann").toList)] :=
  C6_partial_mapping_tolerance.1 _ ("x ").toList [] ("[PII_EMAIL_1]").toList
    ⟨("PII_EMAIL_1").toList, by decide, by decide, by decide⟩
    (by
      intro kv hkv
      rw [List.mem_singleton] at hkv
      subst hkv
      exact ⟨("PII_PERSON_1").toList, by decide, by decide, by decide⟩)
    (by decide)

/-- C7 (confirmed).  Structure-preserving detokenization: with the JSON
serializer/parser abstracted as `dumps`/`loads`, if the substituted
serialized text fails to re-parse, `_detokenize_response` returns the
original still-tokenized response; if it re-parses, the parsed
substituted structure is returned. -/
theorem C7_structure_preserving_fallback {J : Type} (dumps : J → Str)
    (loads : Str → Option J) (response : J) (m : List (Str × Str)) :
    (loads (detokenize_text (dumps response) m) = none →
      detokenize_response dumps loads response m = response) ∧
    (∀ j, loads (detokenize_text (dumps response) m) = some j →
      detokenize_response dumps loads response m = j) := by
  unfold detokenize_response
  constructor
  · intro h
    rw [h]
  · intro j h
    rw [h]

/-- C7 witness: with a parser that always fails, the original response
comes back unchanged. -/
theorem C7_structure_preserving_fallback_witness :
    detokenize_response (fun s => s) (fun _ => (none : Option Str)) (("a").toList)
      [] = ("a").toList :=
  (C7_structure_preserving_fallback (fun s => s) (fun _ => none) (("a").toList) []).1 rfl

/-- C8 (corrected).  Tokenizing the empty string returns the empty string
and an empty mapping for every detector output whose spans are valid and
in bounds for the empty text (there are none).  The code has no empty-input
early return: the detector is invoked, and the result is not independent
of its output (see the counterexample). -/
theorem C8_empty_input (results : List RSpan)
    (h : ∀ r ∈ results, r.start < r.stop ∧ r.stop ≤ ([] : Str).length) :
    tokenize_text [] results = ([], []) := by
  have hnil : results = [] := by
    cases results with
    | nil => rfl
    | cons r rs =>
      have h2 := h r (by simp)
      simp at h2
      omega
  subst hnil
  rfl

/-- C8 witness: the empty detector output. -/
theorem C8_empty_input_witness : tokenize_text [] [] = ([], []) :=
  C8_empty_input [] (by decide)

/-- C8 counterexample: the result is not determined independently of the
detector call — a (degenerate, zero-width) detector result changes the
output of tokenizing the empty string, because `tokenize_text` has no
early return and processes whatever the detector yields. -/
theorem C8_empty_input_counterexample :
    tokenize_text [] [⟨0, 0, ("X").toList⟩] ≠ ([], []) := by
  decide

/-- C9 (confirmed).  Token uniqueness: for every text and every detector
output, the tokens allocated within a single `tokenize_text` call are
pairwise distinct — the returned mapping's keys are `Nodup`.  This holds
because each category's counter starts fresh (both dicts are cleared at
call start) and strictly increments on every allocation, and the token
encoding is injective in (category, counter). -/
theorem C9_token_uniqueness (T : Str) (results : List RSpan) :
    ((tokenize_text T results).2.map Prod.fst).Nodup :=
  tokenize_text_nodup_keys T results

/-- C10 (confirmed).  The mapping returned by `tokenize_text` is a
detached copy: in the heap model, a second `tokenize_text` call on the
same handler (which overwrites the handler's internal `token_mapping`
dict in place) leaves the object returned by the first call unchanged,
because the first call returned a freshly allocated `copy()`. -/
theorem C10_returned_mapping_detached (h0 : Heap) (hd : Handler)
    (href : hd.mapRef < h0.next) (T1 T2 : Str) (R1 R2 : List RSpan) :
    hget (tokenize_text_heap (tokenize_text_heap h0 hd T1 R1).1 hd T2 R2).1
        (tokenize_text_heap h0 hd T1 R1).2.2 =
      hget (tokenize_text_heap h0 hd T1 R1).1 (tokenize_text_heap h0 hd T1 R1).2.2 := by
  have hne1 : hd.mapRef ≠ h0.next := Nat.ne_of_lt href
  simp [tokenize_text_heap_eq, hget, hfind, hset, hne1]

/-- C10 witness: a concrete two-call run on a fresh handler. -/
theorem C10_returned_mapping_detached_witness :
    hget (tokenize_text_heap
        (tokenize_text_heap ⟨1, [(0, [])]⟩ ⟨0⟩ (("Ann Lee").toList)
          [⟨0, 7, ("PERSON").toList⟩]).1 ⟨0⟩ (("b@c.de").toList)
        [⟨0, 6, ("EMAIL_ADDRESS").toList⟩]).1
      (tokenize_text_heap ⟨1, [(0, [])]⟩ ⟨0⟩ (("Ann Lee").toList)
        [⟨0, 7, ("PERSON").toList⟩]).2.2 =
      hget (tokenize_text_heap ⟨1, [(0, [])]⟩ ⟨0⟩ (("Ann Lee").toList)
        [⟨0, 7, ("PERSON").toList⟩]).1
      (tokenize_text_heap ⟨1, [(0, [])]⟩ ⟨0⟩ (("Ann Lee").toList)
        [⟨0, 7, ("PERSON").toList⟩]).2.2 :=
  C10_returned_mapping_detached ⟨1, [(0, [])]⟩ ⟨0⟩ (by decide) (("Ann Lee").toList)
    (("b@c.de").toList) [⟨0, 7, ("PERSON").toList⟩] [⟨0, 6, ("EMAIL_ADDRESS").toList⟩]
